import Mathlib

/-!
# Blueberry wire-format codec: a shallow embedding

This file embeds the Blueberry serde codec (`blueberry_serde`: `crc.py`,
`header.py`, `serializer.py`, `deserializer.py`, `codec.py`) in Lean 4 and
proves properties of the embedding.

Modelling conventions:

* A byte string is a `List Nat` whose entries are `< 256` (enforced where it
  matters by hypotheses or by construction).
* Python's `struct.pack`/`unpack` of fixed-width little-endian scalars is
  modelled on *bit patterns*: a scalar value of byte size `s` is the natural
  number `< 2^(8*s)` whose little-endian bytes `struct.pack` would emit.  For
  unsigned kinds this is the value itself; for signed kinds and floats it is
  the two's-complement/IEEE-754 bit pattern, a bijective recoding of the
  Python-level value.  `struct` raising on an out-of-range value is modelled
  by `Option`.
* Python exceptions (`struct.error`, `ValueError`, `IndexError`, `TypeError`)
  are modelled by `Option`/`Except`: a raising call returns `none`/`.error`.
* Python strings are modelled by their UTF-8 byte sequences.
* `(n + 3) & ~3` (round up to a multiple of 4) is written `((n + 3) / 4) * 4`,
  an equal expression on unbounded naturals.
* Python's `k & 0xFFFF` on an arbitrary (possibly negative) `int` equals the
  nonnegative remainder `k mod 2^16`, written `(k % 65536).toNat` on `Int`.
-/

namespace Blueberry

/-- Little-endian byte list of the `size`-byte bit pattern `n`
(what `struct.pack` emits for an in-range value). -/
def leBytes : (size : Nat) → (n : Nat) → List Nat
  | 0, _ => []
  | size + 1, n => n % 256 :: leBytes size (n / 256)

/-- Total little-endian read of `size` bytes at `pos` (missing bytes read 0). -/
def leVal (data : List Nat) (pos : Nat) : (size : Nat) → Nat
  | 0 => 0
  | size + 1 => data.getD pos 0 + 256 * leVal data (pos + 1) size

/-- Bounds-checked little-endian read, mirroring `struct.unpack_from`
(which raises when fewer than `size` bytes remain at `pos`). -/
def readLE (data : List Nat) (pos size : Nat) : Option Nat :=
  if pos + size ≤ data.length then some (leVal data pos size) else none

/-- Python slice `data[a:b]` (clamping, never raising). -/
def slice (data : List Nat) (a b : Nat) : List Nat :=
  (data.drop a).take (b - a)

/-- Overwrite the two bytes at `pos` with the little-endian encoding of `v`,
mirroring `struct.pack_into("<H", buf, pos, v)` for in-range `v`
(range and bounds are checked by the callers that can fail). -/
def patchU16 (buf : List Nat) (pos v : Nat) : List Nat :=
  (buf.set pos (v % 256)).set (pos + 1) (v / 256 % 256)

/-- Round `n` up to a multiple of 4: Python `(n + 3) & ~3`. -/
def align4 (n : Nat) : Nat := ((n + 3) / 4) * 4

/-- Zero-pad a byte list to a multiple of 4 (`Serializer._pad_block` and the
body-padding step of `Serializer.finalize`). -/
def pad4 (block : List Nat) : List Nat :=
  block ++ List.replicate (align4 block.length - block.length) 0

/-! ## CRC-16-CCITT (`crc.py`) -/

/-- One shift step of the CRC loop: `crc = (crc << 1) ^ 0x1021` when the top
bit is set, else `crc << 1`, truncated to 16 bits. -/
def crcShift (crc : Nat) : Nat :=
  if crc &&& 0x8000 ≠ 0 then ((crc <<< 1) ^^^ 0x1021) % 65536
  else (crc <<< 1) % 65536

/-- Eight shift steps. -/
def crcShift8 (crc : Nat) : Nat :=
  crcShift (crcShift (crcShift (crcShift (crcShift (crcShift (crcShift (crcShift crc)))))))

/-- Fold one input byte into the CRC state. -/
def crcByte (crc byte : Nat) : Nat :=
  crcShift8 (crc ^^^ (byte <<< 8))

/-- CRC-16-CCITT (CCITT-FALSE): poly 0x1021, init 0xFFFF, no reflection,
no final XOR (`crc16_ccitt`). -/
def crc16_ccitt (data : List Nat) : Nat :=
  data.foldl crcByte 0xFFFF

/-! ## Headers (`header.py`) -/

/-- The 8-byte message header (`MessageHeader`). -/
structure MessageHeader where
  module_key : Nat
  message_key : Nat
  length : Nat
  max_ordinal : Nat
  tbd : Nat
  deriving Repr, DecidableEq

/-- Python `k & 0xFFFF` on an arbitrary `int`. -/
def maskKey (k : Int) : Nat := (k % 65536).toNat

/-- The packed first word `((module_key & 0xFFFF) << 16) | (message_key & 0xFFFF)`. -/
def moduleMessageKey (module_key message_key : Nat) : Nat :=
  ((module_key % 65536) <<< 16) ||| (message_key % 65536)

/-- `MessageHeader.encode` / `encode_into`: pack `<IHBB`.  The first word is
masked and never overflows; `struct.pack` raises when `length` exceeds `u16`
or `max_ordinal`/`tbd` exceed `u8`. -/
def MessageHeader.encode (h : MessageHeader) : Option (List Nat) :=
  if h.length < 65536 ∧ h.max_ordinal < 256 ∧ h.tbd < 256 then
    some (leBytes 4 (moduleMessageKey h.module_key h.message_key) ++
          leBytes 2 h.length ++ [h.max_ordinal, h.tbd])
  else none

/-- `MessageHeader.decode`: `None` when fewer than 8 bytes remain at `offset`. -/
def MessageHeader.decode (data : List Nat) (offset : Nat) : Option MessageHeader :=
  if data.length - offset < 8 then none
  else
    let mmk := leVal data offset 4
    some { module_key := (mmk >>> 16) &&& 0xFFFF
           message_key := mmk &&& 0xFFFF
           length := leVal data (offset + 4) 2
           max_ordinal := data.getD (offset + 6) 0
           tbd := data.getD (offset + 7) 0 }

/-- Packet magic `b"Blue"` (`constants.PACKET_MAGIC`). -/
def PACKET_MAGIC : List Nat := [0x42, 0x6C, 0x75, 0x65]

/-- The 8-byte packet header (`PacketHeader`). -/
structure PacketHeader where
  length_words : Nat
  crc : Nat
  deriving Repr, DecidableEq

/-- `PacketHeader.encode`: magic then pack `<HH`. -/
def PacketHeader.encode (h : PacketHeader) : Option (List Nat) :=
  if h.length_words < 65536 ∧ h.crc < 65536 then
    some (PACKET_MAGIC ++ leBytes 2 h.length_words ++ leBytes 2 h.crc)
  else none

/-- `PacketHeader.decode`: `None` on fewer than 8 bytes or bad magic. -/
def PacketHeader.decode (data : List Nat) (offset : Nat) : Option PacketHeader :=
  if data.length - offset < 8 then none
  else if slice data offset (offset + 4) ≠ PACKET_MAGIC then none
  else some { length_words := leVal data (offset + 4) 2
              crc := leVal data (offset + 6) 2 }

/-! ## Schemas and values

The codec consumes pydantic models through `model_fields` and the effective
field annotations (`_effective_annotation`: an explicit `WireType` from the
metadata, else the Python type).  We embed the supported effective
annotations as `Ann` and field values as `Value`. -/

/-- Effective field annotations the codec dispatches on: an explicit
`WireType` (carrying its byte size; the format character only fixes the
value↔bit-pattern recoding), `bool`, `str`, `list[T]`, or a nested pydantic
model (carried as its ordered field-annotation list). -/
inductive Ann where
  | wire (size : Nat)
  | bool
  | str
  | list (elem : Ann)
  | model (fields : List Ann)
  deriving Repr

/-- Field values: scalars as bit patterns, strings as UTF-8 byte lists,
models as ordered field-value lists. -/
inductive Value where
  | wire (n : Nat)
  | bool (b : Bool)
  | str (bytes : List Nat)
  | list (elems : List Value)
  | model (fields : List Value)
  deriving Repr

/-! ## The serializer (`serializer.py`) -/

/-- The `Serializer` state.  `in_seq_data` is declared by the source and
never set to `True`; it is kept for fidelity. -/
structure Serializer where
  buf : List Nat
  pos : Nat
  seq_data_blocks : List (List Nat)
  seq_fixups : List (Nat × Nat)
  bool_bit_pos : Nat
  bool_byte_offset : Option Nat
  in_seq_data : Bool
  field_count : Nat
  base_offset : Nat
  deriving Repr

/-- `Serializer.__init__`. -/
def Serializer.init : Serializer :=
  { buf := [], pos := 0, seq_data_blocks := [], seq_fixups := []
    bool_bit_pos := 0, bool_byte_offset := none, in_seq_data := false
    field_count := 0, base_offset := 0 }

/-- `Serializer._write_padding`. -/
def Serializer.writePadding (s : Serializer) (size : Nat) : Serializer :=
  if s.in_seq_data ∨ size ≤ 1 then s
  else
    let align := if 8 ≤ size then 4 else size
    let rem := s.pos % align
    if rem ≠ 0 then
      { s with buf := s.buf ++ List.replicate (align - rem) 0, pos := s.pos + (align - rem) }
    else s

/-- `Serializer._flush_bools`. -/
def Serializer.flushBools (s : Serializer) : Serializer :=
  { s with bool_bit_pos := 0, bool_byte_offset := none }

/-- `Serializer._write_bool`. -/
def Serializer.writeBool (s : Serializer) (v : Bool) : Serializer :=
  match s.bool_byte_offset with
  | some off =>
    let buf := if v then s.buf.set off ((s.buf.getD off 0) ||| (1 <<< s.bool_bit_pos)) else s.buf
    let bit := s.bool_bit_pos + 1
    if 8 ≤ bit then { s with buf := buf, bool_bit_pos := 0, bool_byte_offset := none }
    else { s with buf := buf, bool_bit_pos := bit }
  | none =>
    let s := s.writePadding 1
    let off := s.buf.length
    { s with buf := s.buf ++ [if v then 1 else 0], pos := s.pos + 1
             bool_bit_pos := 1, bool_byte_offset := some off }

/-- `Serializer._write_primitive`: `struct.pack` raises when the value does
not fit the format, i.e. (on bit patterns) when `2^(8*size) ≤ value`. -/
def Serializer.writePrimitive (s : Serializer) (size value : Nat) : Option Serializer :=
  if value < 2 ^ (8 * size) then
    let s := s.flushBools
    let s := s.writePadding size
    some { s with buf := s.buf ++ leBytes size value, pos := s.pos + size }
  else none

/-- `Serializer._write_string`: `value.encode("utf-8")` always yields bytes
`< 256`; `struct.pack("<I", len)` raises when the length exceeds `u32`. -/
def Serializer.writeString (s : Serializer) (bytes : List Nat) : Option Serializer :=
  if (∀ b ∈ bytes, b < 256) ∧ bytes.length < 2 ^ 32 then
    let s := s.flushBools
    let s := s.writePadding 2
    let header_offset := s.buf.length
    let s := { s with buf := s.buf ++ [0, 0], pos := s.pos + 2 }
    let block := pad4 (leBytes 4 bytes.length ++ bytes)
    let block_idx := s.seq_data_blocks.length
    some { s with seq_data_blocks := s.seq_data_blocks ++ [block]
                  seq_fixups := s.seq_fixups ++ [(header_offset, block_idx)] }
  else none

mutual

/-- `Serializer._serialize_value_into_block`, returning the bytes appended to
the block.  `str` and `list` element annotations raise in the source
(`_resolve_primitive` raises `TypeError` on `str`; `struct.pack` raises on a
list value), as does any value/annotation shape mismatch. -/
def serializeValueIntoBlock : Ann → Value → Option (List Nat)
  | .wire size, .wire n => if n < 2 ^ (8 * size) then some (leBytes size n) else none
  | .model fields, .model vs => serializeModelIntoBlock fields vs
  | .bool, .bool b => some [if b then 1 else 0]
  | _, _ => none

/-- `Serializer._serialize_model_into_block`: sub-fields packed in order. -/
def serializeModelIntoBlock : List Ann → List Value → Option (List Nat)
  | [], [] => some []
  | f :: fs, v :: vs => do
    let bs ← serializeValueIntoBlock f v
    let rest ← serializeModelIntoBlock fs vs
    pure (bs ++ rest)
  | _, _ => none

end

/-- The element loop of `_write_sequence`: concatenation of the packed
encodings of the elements. -/
def seqBlockBytes (elem : Ann) (values : List Value) : Option (List Nat) :=
  values.foldlM (fun acc v => do
    let bs ← serializeValueIntoBlock elem v
    pure (acc ++ bs)) []

/-- `first_elem_size` of `_write_sequence`: the byte length of the first
element's packed encoding (`0` for an empty sequence; the `or 0` of the
source cannot trigger because a written element is at least one byte). -/
def seqFirstSize (elem : Ann) (values : List Value) : Option Nat :=
  match values with
  | [] => some 0
  | v :: _ => (serializeValueIntoBlock elem v).map List.length

/-- `Serializer._write_sequence`: write a 4-byte descriptor placeholder,
encode the elements packed into a block, prepend the `u32` count, patch the
`element_byte_size` half of the descriptor (`struct.pack_into("<H", …)`
raises when it exceeds `u16`), and register the block and its fixup. -/
def Serializer.writeSequence (s : Serializer) (elem : Ann) (values : List Value) :
    Option Serializer :=
  if values.length < 2 ^ 32 then
    (seqBlockBytes elem values).bind fun elemBytes =>
      (seqFirstSize elem values).bind fun first_elem_size =>
        let s := s.flushBools
        let s := s.writePadding 2
        let header_offset := s.buf.length
        let s := { s with buf := s.buf ++ [0, 0, 0, 0], pos := s.pos + 4 }
        let block := pad4 (leBytes 4 values.length ++ elemBytes)
        if first_elem_size < 65536 then
          let s := { s with buf := patchU16 s.buf (header_offset + 2) first_elem_size }
          let block_idx := s.seq_data_blocks.length
          some { s with seq_data_blocks := s.seq_data_blocks ++ [block]
                        seq_fixups := s.seq_fixups ++ [(header_offset, block_idx)] }
        else none
  else none

mutual

/-- `Serializer._serialize_field`.  A nested model is inlined, incrementing
`field_count` once per sub-field before recursing.  IntEnum values and the
default-`int`/`float` fallbacks are outside the supported wire kinds and are
not modelled; a value whose shape does not match its annotation raises. -/
def Serializer.serializeField (s : Serializer) : Ann → Value → Option Serializer
  | .wire size, .wire n => s.writePrimitive size n
  | .bool, .bool b => some (s.writeBool b)
  | .str, .str bytes => s.writeString bytes
  | .list elem, .list vs => s.writeSequence elem vs
  | .model fields, .model vs => Serializer.serializeFieldList s fields vs
  | _, _ => none

/-- Iterate `field_count += 1; _serialize_field(…)` over paired fields and
values (the loop body shared by `serialize_model` and the nested-model case
of `_serialize_field`). -/
def Serializer.serializeFieldList (s : Serializer) : List Ann → List Value → Option Serializer
  | [], [] => some s
  | f :: fs, v :: vs => do
    let s' ← Serializer.serializeField { s with field_count := s.field_count + 1 } f v
    Serializer.serializeFieldList s' fs vs
  | _, _ => none

end

/-- `Serializer.serialize_model`: one `field_count` increment and one
`_serialize_field` per top-level field. -/
def Serializer.serializeModel (s : Serializer) (fields : List Ann) (vs : List Value) :
    Option Serializer :=
  Serializer.serializeFieldList s fields vs

/-- `Serializer.finalize`: flush bools, pad the body to a word when data
blocks exist, patch every fixup with the running absolute block offset
(`struct.pack_into("<H", …)` raises when an offset exceeds `u16` or lies out
of bounds), then append the blocks. -/
def Serializer.finalize (s : Serializer) : Option (List Nat) := do
  let s := s.flushBools
  let s :=
    if s.seq_data_blocks ≠ [] then
      { s with buf := pad4 s.buf, pos := align4 s.buf.length }
    else s
  let body_len := s.buf.length
  let (buf, _) ← s.seq_fixups.foldlM
    (fun (acc : List Nat × Nat) fix => do
      let block := s.seq_data_blocks.getD fix.2 []
      if fix.1 + 2 ≤ acc.1.length ∧ acc.2 < 65536 then
        pure (patchU16 acc.1 fix.1 acc.2, acc.2 + block.length)
      else none)
    (s.buf, s.base_offset + body_len)
  pure (buf ++ s.seq_data_blocks.flatten)

/-! ## The deserializer (`deserializer.py`) -/

/-- The `Deserializer` state.  As on the write side, `in_seq_data` is never
set to `True` by the source. -/
structure Deserializer where
  data : List Nat
  pos : Nat
  bool_bit_pos : Nat
  bool_byte : Option Nat
  in_seq_data : Bool
  message_byte_len : Option Nat
  message_start : Nat
  deriving Repr

/-- `Deserializer.__init__` (with `pos = body_start`) followed by setting
`message_byte_len`, i.e. `Deserializer.with_message_context`.  Note that
`message_start` stays 0. -/
def Deserializer.withMessageContext (data : List Nat) (body_start mbl : Nat) : Deserializer :=
  { data := data, pos := body_start, bool_bit_pos := 0, bool_byte := none
    in_seq_data := false, message_byte_len := some mbl, message_start := 0 }

/-- `Deserializer._read_padding`. -/
def Deserializer.readPadding (d : Deserializer) (size : Nat) : Deserializer :=
  if d.in_seq_data ∨ size ≤ 1 then d
  else
    let align := if 8 ≤ size then 4 else size
    let rem := d.pos % align
    if rem ≠ 0 then { d with pos := d.pos + (align - rem) } else d

/-- `Deserializer._flush_bools`. -/
def Deserializer.flushBools (d : Deserializer) : Deserializer :=
  { d with bool_bit_pos := 0, bool_byte := none }

/-- `Deserializer._read_bool` (`self.data[self.pos]` raising `IndexError`
out of bounds is `none`). -/
def Deserializer.readBool (d : Deserializer) : Option (Bool × Deserializer) :=
  match d.bool_byte with
  | some byte =>
    let v := ((byte >>> d.bool_bit_pos) &&& 1) == 1
    let bit := d.bool_bit_pos + 1
    if 8 ≤ bit then some (v, { d with bool_bit_pos := 0, bool_byte := none })
    else some (v, { d with bool_bit_pos := bit })
  | none =>
    let d := d.readPadding 1
    match d.data[d.pos]? with
    | none => none
    | some byte =>
      some ((byte &&& 1) == 1, { d with pos := d.pos + 1, bool_bit_pos := 1
                                        bool_byte := some byte })

/-- `Deserializer._read_primitive`, on bit patterns. -/
def Deserializer.readPrimitive (d : Deserializer) (size : Nat) : Option (Nat × Deserializer) := do
  let d := d.flushBools
  let d := d.readPadding size
  let n ← readLE d.data d.pos size
  pure (n, { d with pos := d.pos + size })

/-- `Deserializer._read_string`, returning the UTF-8 bytes of the string.
The Python slice never raises; a UTF-8 decoding failure on bytes that did not
come from the encoder is not modelled. -/
def Deserializer.readString (d : Deserializer) : Option (List Nat × Deserializer) := do
  let d := d.flushBools
  let d := d.readPadding 2
  let index ← readLE d.data d.pos 2
  let d := { d with pos := d.pos + 2 }
  if index = 0 then pure ([], d)
  else
    let data_start := d.message_start + index
    let count ← readLE d.data data_start 4
    let bytes_start := data_start + 4
    pure (slice d.data bytes_start (bytes_start + count), d)

/-- `_resolve_primitive` restricted to the supported annotations, returning
the byte size (`none` where the source raises `TypeError`). -/
def resolvePrimitive : Ann → Option Nat
  | .wire size => some size
  | .bool => some 1
  | .list e => resolvePrimitive e
  | .str => none
  | .model _ => none

mutual

/-- `Deserializer._read_element_from_block`: read one packed element at `pos`
inside a data block (the buffer is read-only here, so only the position
threads through). -/
def readElementFromBlock (data : List Nat) : Ann → Nat → Option (Value × Nat)
  | .wire size, p => (readLE data p size).map fun n => (.wire n, p + size)
  | .model fields, p => (readModelFromBlock data fields p).map fun r => (.model r.1, r.2)
  | .bool, p =>
    match data[p]? with
    | none => none
    | some b => some (.bool ((b &&& 1) == 1), p + 1)
  | .str, _ => none
  | .list e, p =>
    match resolvePrimitive e with
    | some size => (readLE data p size).map fun n => (.wire n, p + size)
    | none => none

/-- `Deserializer._read_model_from_block`. -/
def readModelFromBlock (data : List Nat) : List Ann → Nat → Option (List Value × Nat)
  | [], p => some ([], p)
  | f :: fs, p => do
    let (v, p') ← readElementFromBlock data f p
    let (vs, p'') ← readModelFromBlock data fs p'
    pure (v :: vs, p'')

end

/-- The `for _ in range(count)` element loop of `_read_sequence`. -/
def readElements (data : List Nat) (elem : Ann) : Nat → Nat → Option (List Value × Nat)
  | 0, p => some ([], p)
  | n + 1, p => do
    let (v, p') ← readElementFromBlock data elem p
    let (vs, p'') ← readElements data elem n p'
    pure (v :: vs, p'')

/-- `Deserializer._read_sequence`. -/
def Deserializer.readSequence (d : Deserializer) (elem : Ann) :
    Option (List Value × Deserializer) := do
  let d := d.flushBools
  let d := d.readPadding 2
  let index ← readLE d.data d.pos 2
  let elem_byte_len ← readLE d.data (d.pos + 2) 2
  let d := { d with pos := d.pos + 4 }
  if index = 0 ∧ elem_byte_len = 0 then pure ([], d)
  else
    let data_start := d.message_start + index
    let count ← readLE d.data data_start 4
    let (vs, _) ← readElements d.data elem count (data_start + 4)
    pure (vs, d)

/-- `Deserializer._skip_to_message_end`. -/
def Deserializer.skipToMessageEnd (d : Deserializer) : Deserializer :=
  match d.message_byte_len with
  | some len =>
    if d.pos < d.message_start + len then { d with pos := d.message_start + len } else d
  | none => d

mutual

/-- `Deserializer._deserialize_field`.  The nested-model case is
`deserialize_model`, which reads the sub-fields and then runs
`_skip_to_message_end` — also for nested models. -/
def Deserializer.deserializeField (d : Deserializer) : Ann → Option (Value × Deserializer)
  | .wire size => (d.readPrimitive size).map fun r => (.wire r.1, r.2)
  | .bool => (d.readBool).map fun r => (.bool r.1, r.2)
  | .str => (d.readString).map fun r => (.str r.1, r.2)
  | .list e => (d.readSequence e).map fun r => (.list r.1, r.2)
  | .model fields =>
    (Deserializer.deserializeFields d fields).map fun r =>
      (.model r.1, r.2.skipToMessageEnd)

/-- The field loop of `Deserializer.deserialize_model`. -/
def Deserializer.deserializeFields (d : Deserializer) :
    List Ann → Option (List Value × Deserializer)
  | [] => some ([], d)
  | f :: fs => do
    let (v, d') ← Deserializer.deserializeField d f
    let (vs, d'') ← Deserializer.deserializeFields d' fs
    pure (v :: vs, d'')

end

/-- `Deserializer.deserialize_model`: read all fields, then skip to the
message end. -/
def Deserializer.deserializeModel (d : Deserializer) (fields : List Ann) :
    Option (List Value × Deserializer) :=
  (d.deserializeFields fields).map fun r => (r.1, r.2.skipToMessageEnd)

/-! ## The codec surface (`codec.py`) -/

/-- `serialize`: record head + data blocks, no message header. -/
def serialize (fields : List Ann) (vs : List Value) : Option (List Nat) := do
  let s ← Serializer.init.serializeModel fields vs
  s.finalize

/-- `deserialize`: raw bytes to the record's field values. -/
def deserialize (data : List Nat) (fields : List Ann) : Option (List Value) :=
  let d : Deserializer :=
    { data := data, pos := 0, bool_bit_pos := 0, bool_byte := none
      in_seq_data := false, message_byte_len := none, message_start := 0 }
  (d.deserializeModel fields).map Prod.fst

/-- `serialize_message`.  The header stores `module_key & 0xFFFF` and
`message_key & 0xFFFF`; masking at construction is observationally the same
as the source's masking inside `encode_into`. -/
def serializeMessage (fields : List Ann) (vs : List Value) (module_key message_key : Int) :
    Option (List Nat) := do
  let s ← Serializer.serializeModel { Serializer.init with base_offset := 8 } fields vs
  let body ← s.finalize
  let total_bytes := 8 + body.length
  let padded_bytes := align4 total_bytes
  let length_words := padded_bytes / 4
  let max_ordinal := s.field_count + 3 - 1
  let hdr ← MessageHeader.encode
    { module_key := maskKey module_key, message_key := maskKey message_key
      length := length_words, max_ordinal := max_ordinal, tbd := 0 }
  pure (hdr ++ body ++ List.replicate (padded_bytes - 8 - body.length) 0)

/-- `deserialize_message`. -/
def deserializeMessage (data : List Nat) (fields : List Ann) :
    Option (MessageHeader × List Value) := do
  let header ← MessageHeader.decode data 0
  let message_byte_len := header.length * 4
  let d := Deserializer.withMessageContext data 8 message_byte_len
  let (vs, _) ← d.deserializeModel fields
  pure (header, vs)

/-- `empty_message`: header only, `length = 8 // 4 = 2`,
`max_ordinal = HEADER_FIELD_COUNT - 1 = 2`. -/
def emptyMessage (module_key message_key : Int) : Option (List Nat) :=
  MessageHeader.encode
    { module_key := maskKey module_key, message_key := maskKey message_key
      length := 2, max_ordinal := 2, tbd := 0 }

/-- `serialize_packet`. -/
def serializePacket (messages : List (List Nat)) : Option (List Nat) := do
  let message_data := messages.flatten
  let total_bytes := 8 + message_data.length
  let padded_bytes := align4 total_bytes
  let length_words := padded_bytes / 4
  let message_data := message_data ++ List.replicate (padded_bytes - 8 - message_data.length) 0
  let crc := crc16_ccitt message_data
  let hdr ← PacketHeader.encode { length_words := length_words, crc := crc }
  pure (hdr ++ message_data)

/-- The error kinds `deserialize_packet` raises (messages of the
`ValueError`s in the source). -/
inductive PacketError where
  | badHeader
  | truncated
  | crcMismatch
  | msgOverrun
  deriving Repr, DecidableEq

/-- The message-partition loop of `deserialize_packet`: while 8 header bytes
remain before `total`, decode a message header, stop on a header that cannot
be read or declares fewer than 8 bytes, fail when the declared slice passes
`total`, else take the slice and advance. -/
def packetWalk (data : List Nat) (total offset : Nat) :
    Except PacketError (List (List Nat)) :=
  if h : offset + 8 ≤ total then
    match MessageHeader.decode data offset with
    | none => .ok []
    | some mh =>
      let msg_byte_len := mh.length * 4
      if hlen : msg_byte_len < 8 then .ok []
      else
        let msg_end := offset + msg_byte_len
        if hend : total < msg_end then .error .msgOverrun
        else
          match packetWalk data total msg_end with
          | .ok rest => .ok (slice data offset msg_end :: rest)
          | .error e => .error e
  else .ok []
termination_by total - offset
decreasing_by omega

/-- `deserialize_packet`: validate magic, length and CRC, then partition the
message region. -/
def deserializePacket (data : List Nat) : Except PacketError (PacketHeader × List (List Nat)) :=
  match PacketHeader.decode data 0 with
  | none => .error .badHeader
  | some pkt_header =>
    let total_bytes := pkt_header.length_words * 4
    if data.length < total_bytes then .error .truncated
    else
      let message_data := slice data 8 total_bytes
      if pkt_header.crc ≠ crc16_ccitt message_data then .error .crcMismatch
      else
        match packetWalk data total_bytes 8 with
        | .ok msgs => .ok (pkt_header, msgs)
        | .error e => .error e

/-! ## Specification-side definitions used by the claims -/

mutual

/-- The extra `field_count` increments `_serialize_field` performs beyond the
one its caller already made: zero for leaf kinds, and for a nested model one
per sub-field plus that sub-field's own extra increments. -/
def annExtra : Ann → Nat
  | .model fields => annsCount fields
  | _ => 0

/-- Total `field_count` contribution of a field list: one increment per field
plus each field's extra increments. -/
def annsCount : List Ann → Nat
  | [] => 0
  | f :: fs => 1 + annExtra f + annsCount fs

end

/-- Number of top-level fields, a nested record field counting as one
(the claim's reading of `max_ordinal`). -/
def topLevelCount (fields : List Ann) : Nat := fields.length

/-- Value of a byte assembled LSB-first from a bit list. -/
def byteOf : List Bool → Nat
  | [] => 0
  | b :: bs => (if b then 1 else 0) + 2 * byteOf bs

mutual

/-- Reference packing of a bool run: `packBools` chunks the bits into bytes
LSB-first, 8 per byte. -/
def packBools : List Bool → List Nat
  | [] => []
  | b :: bs => packAux (if b then 1 else 0) 1 bs

/-- Continue packing into a partially filled byte `cur` whose next free bit
index is `r` (`1 ≤ r ≤ 7`). -/
def packAux (cur r : Nat) : List Bool → List Nat
  | [] => [cur]
  | b :: bs =>
    let cur' := cur ||| ((if b then 1 else 0) <<< r)
    if 8 ≤ r + 1 then cur' :: packBools bs else packAux cur' (r + 1) bs

end

/-- Flip bit `k` of byte `i` of a byte string. -/
def flipBit (data : List Nat) (i k : Nat) : List Nat :=
  data.set i ((data.getD i 0) ^^^ (1 <<< k))

/-- The message length in bytes an 8-byte message header at cursor `c`
declares: the `u16` at `c + 4`, times 4. -/
def msgLenAt (data : List Nat) (c : Nat) : Nat := leVal data (c + 4) 2 * 4

/-- The cursors the packet partition walk visits from `start`: from a cursor
whose in-range header declares a valid in-range length, advance by that
length. -/
inductive WalkCursor (data : List Nat) (total start : Nat) : Nat → Prop where
  | head : WalkCursor data total start start
  | step {c : Nat} : WalkCursor data total start c → c + 8 ≤ total → 8 ≤ msgLenAt data c →
      c + msgLenAt data c ≤ total → WalkCursor data total start (c + msgLenAt data c)

/-- Some cursor reachable from `start` carries a message header whose
declared slice extends past `total`. -/
def walkOverrunFrom (data : List Nat) (total start : Nat) : Prop :=
  ∃ c, WalkCursor data total start c ∧ c + 8 ≤ total ∧ 8 ≤ msgLenAt data c ∧
    total < c + msgLenAt data c

/-- Some cursor the packet walk (starting at byte 8) reaches carries a
message header whose declared slice extends past `total`. -/
def walkOverrun (data : List Nat) (total : Nat) : Prop :=
  walkOverrunFrom data total 8

/-- A byte string some call of `serialize_message` or `empty_message`
produced. -/
def producedMessage (b : List Nat) : Prop :=
  (∃ fields vs module_key message_key,
    serializeMessage fields vs module_key message_key = some b) ∨
  (∃ module_key message_key, emptyMessage module_key message_key = some b)

/-- A well-framed message byte string: at least the 8 header bytes, a whole
number of words, and a decodable header whose length field matches the byte
length exactly. -/
def wfMessage (m : List Nat) : Prop :=
  8 ≤ m.length ∧ m.length % 4 = 0 ∧
  ∃ h, MessageHeader.decode m 0 = some h ∧ h.length * 4 = m.length

/-- The serializer's fixup bookkeeping invariant: descriptor slots are
disjoint two-byte windows inside the head in increasing order, and the
fixups' block indices are exactly `0, 1, …` in registration order. -/
def SerInv (s : Serializer) : Prop :=
  List.Pairwise (fun p q : Nat × Nat => p.1 + 2 ≤ q.1) s.seq_fixups ∧
  (∀ p ∈ s.seq_fixups, p.1 + 2 ≤ s.buf.length) ∧
  s.seq_fixups.map Prod.snd = List.range s.seq_data_blocks.length

/-! ## Byte-level lemmas -/

theorem leBytes_length (size n : Nat) : (leBytes size n).length = size := by
  induction size generalizing n with
  | zero => rfl
  | succ k ih => simp [leBytes, ih]

theorem leBytes_mem_lt (size n : Nat) : ∀ b ∈ leBytes size n, b < 256 := by
  induction size generalizing n with
  | zero => intro b hb; simp [leBytes] at hb
  | succ k ih =>
    intro b hb
    simp only [leBytes, List.mem_cons] at hb
    rcases hb with h | h
    · omega
    · exact ih _ _ h

theorem leVal_congr : ∀ {size : Nat} {d1 d2 : List Nat} {p1 p2 : Nat},
    (∀ i, i < size → d1.getD (p1 + i) 0 = d2.getD (p2 + i) 0) →
      leVal d1 p1 size = leVal d2 p2 size := by
  intro size
  induction size with
  | zero => intro d1 d2 p1 p2 _; rfl
  | succ k ih =>
    intro d1 d2 p1 p2 h
    have h0 := h 0 (by omega)
    simp only [Nat.add_zero] at h0
    have hrest : leVal d1 (p1 + 1) k = leVal d2 (p2 + 1) k := by
      refine ih fun i hi => ?_
      have hx := h (i + 1) (by omega)
      have e1 : p1 + (i + 1) = p1 + 1 + i := by omega
      have e2 : p2 + (i + 1) = p2 + 1 + i := by omega
      rw [e1, e2] at hx
      exact hx
    simp only [leVal, h0, hrest]

theorem getD_append_right_self (pre rest : List Nat) (i : Nat) :
    (pre ++ rest).getD (pre.length + i) 0 = rest.getD i 0 := by
  simp [List.getD_eq_getElem?_getD, List.getElem?_append_right (Nat.le_add_right pre.length i)]

theorem getD_append_left_of_lt {pre : List Nat} (rest : List Nat) {i : Nat}
    (h : i < pre.length) : (pre ++ rest).getD i 0 = pre.getD i 0 := by
  simp [List.getD_eq_getElem?_getD, List.getElem?_append_left h]

/-- `leVal` over an appended suffix, starting at the end of the prefix. -/
theorem leVal_append (pre rest : List Nat) (size : Nat) :
    leVal (pre ++ rest) pre.length size = leVal rest 0 size :=
  leVal_congr fun i _ => by
    simpa using getD_append_right_self pre rest i

/-- `leVal` reads only bytes below `pos + size`. -/
theorem leVal_append_left (pre rest : List Nat) {pos size : Nat}
    (h : pos + size ≤ pre.length) :
    leVal (pre ++ rest) pos size = leVal pre pos size :=
  leVal_congr fun i hi => getD_append_left_of_lt rest (by omega)

theorem mod_mul_256 (n K : Nat) (hK : 0 < K) :
    n % (256 * K) = n % 256 + 256 * (n / 256 % K) := by
  have e2 : K * (n / 256 / K) + n / 256 % K = n / 256 := Nat.div_add_mod _ _
  have h1 : n = 256 * K * (n / 256 / K) + (256 * (n / 256 % K) + n % 256) := by
    calc n = 256 * (n / 256) + n % 256 := (Nat.div_add_mod n 256).symm
    _ = 256 * (K * (n / 256 / K) + n / 256 % K) + n % 256 := by rw [e2]
    _ = 256 * K * (n / 256 / K) + (256 * (n / 256 % K) + n % 256) := by ring
  have h2 : n / 256 % K < K := Nat.mod_lt _ hK
  have h3 : n % 256 < 256 := Nat.mod_lt _ (by omega)
  conv_lhs => rw [h1]
  rw [Nat.mul_add_mod,
      Nat.mod_eq_of_lt (show 256 * (n / 256 % K) + n % 256 < 256 * K by omega)]
  omega

theorem leVal_leBytes (size n : Nat) : leVal (leBytes size n) 0 size = n % 2 ^ (8 * size) := by
  induction size generalizing n with
  | zero => simp [leVal, leBytes, Nat.mul_zero, Nat.pow_zero, Nat.mod_one]
  | succ k ih =>
    have hshift : leVal (n % 256 :: leBytes k (n / 256)) 1 k = leVal (leBytes k (n / 256)) 0 k :=
      leVal_congr fun i _ => by rw [Nat.add_comm 1 i]; simp
    have hpow : 2 ^ (8 * (k + 1)) = 256 * 2 ^ (8 * k) := by
      rw [Nat.mul_add, Nat.pow_add]; ring
    simp only [leBytes, leVal, List.getD_cons_zero, Nat.zero_add, hshift, ih, hpow]
    rw [mod_mul_256 n (2 ^ (8 * k)) (Nat.two_pow_pos _)]

theorem leVal_leBytes_of_lt {size n : Nat} (h : n < 2 ^ (8 * size)) :
    leVal (leBytes size n) 0 size = n := by
  rw [leVal_leBytes, Nat.mod_eq_of_lt h]

/-- The key `u16`-packing identity `(a <<< 16) ||| b = a * 2^16 + b` for
`b < 2^16`, proved for a general shift. -/
theorem shiftLeft_or_eq_add {n : Nat} : ∀ {a b : Nat}, b < 2 ^ n →
    (a <<< n) ||| b = a * 2 ^ n + b := by
  induction n with
  | zero =>
    intro a b hb
    have hb0 : b = 0 := by simpa using hb
    subst hb0
    simp [Nat.shiftLeft_eq]
  | succ k ih =>
    intro a b hb
    have hpow : 2 ^ (k + 1) = 2 * 2 ^ k := by rw [Nat.pow_succ]; ring
    rw [hpow] at hb
    have hmul : a * (2 * 2 ^ k) = a * 2 ^ k * 2 := by ring
    have hdiv2 : (a <<< (k + 1)) / 2 = a <<< k := by
      rw [Nat.shiftLeft_eq, Nat.shiftLeft_eq, hpow, hmul, Nat.mul_div_cancel _ (by omega)]
    have heven : (a <<< (k + 1)) % 2 = 0 := by
      rw [Nat.shiftLeft_eq, hpow, hmul, Nat.mul_mod_left]
    have hdiv : ((a <<< (k + 1)) ||| b) / 2 = a * 2 ^ k + b / 2 := by
      rw [Nat.or_div_two, hdiv2, ih (by omega)]
    have hmod : ((a <<< (k + 1)) ||| b) % 2 = b % 2 := by
      rcases Nat.mod_two_eq_zero_or_one b with h | h
      · have hne : ¬ (((a <<< (k + 1)) ||| b) % 2 = 1) := by
          rw [Nat.or_mod_two_eq_one]; omega
        omega
      · rw [h, Nat.or_mod_two_eq_one]; omega
    have hsplit := Nat.div_add_mod ((a <<< (k + 1)) ||| b) 2
    have hbsplit := Nat.div_add_mod b 2
    rw [hpow]
    omega

/-! ## Header lemmas -/

theorem and_65535_eq_mod (x : Nat) : x &&& 65535 = x % 65536 := by
  have h : (65535 : Nat) = 2 ^ 16 - 1 := by norm_num
  rw [h, Nat.and_pow_two_sub_one_eq_mod]

theorem shiftRight16_eq_div (x : Nat) : x >>> 16 = x / 65536 := by
  rw [Nat.shiftRight_eq_div_pow]

/-- Read a full `leBytes` chunk sitting at the front. -/
theorem leVal_leBytes_here {size n : Nat} (rest : List Nat) (h : n < 2 ^ (8 * size)) :
    leVal (leBytes size n ++ rest) 0 size = n := by
  rw [leVal_append_left _ _ (by simp [leBytes_length]), leVal_leBytes_of_lt h]

/-- Skip a known-length list before a `leVal` read. -/
theorem leVal_skip (pre rest : List Nat) (k size : Nat) (hk : k = pre.length) :
    leVal (pre ++ rest) k size = leVal rest 0 size := by
  subst hk
  exact leVal_append pre rest size

/-- Skip a known-length list before a `getD` read. -/
theorem getD_skip (pre rest : List Nat) (k i : Nat) (hk : k = pre.length + i) :
    (pre ++ rest).getD k 0 = rest.getD i 0 := by
  subst hk
  exact getD_append_right_self pre rest i

theorem moduleMessageKey_eq (a b : Nat) :
    moduleMessageKey a b = (a % 65536) * 65536 + b % 65536 := by
  unfold moduleMessageKey
  have h16 : (2 : Nat) ^ 16 = 65536 := by norm_num
  have hb : b % 65536 < 2 ^ 16 := by rw [h16]; exact Nat.mod_lt _ (by omega)
  rw [shiftLeft_or_eq_add hb, h16]

theorem moduleMessageKey_lt (a b : Nat) : moduleMessageKey a b < 2 ^ 32 := by
  rw [moduleMessageKey_eq]
  have h32 : (2 : Nat) ^ 32 = 4294967296 := by norm_num
  have h1 : a % 65536 < 65536 := Nat.mod_lt _ (by omega)
  have h2 : b % 65536 < 65536 := Nat.mod_lt _ (by omega)
  rw [h32]
  omega

/-- Decode the explicit 8 header bytes `leBytes 4 M ++ leBytes 2 len ++ [mo, tbd]`
with anything appended. -/
theorem MessageHeader.decode_bytes (M len mo tbd : Nat) (suffix : List Nat)
    (hMlt : M < 2 ^ 32) (hlen : len < 65536) :
    MessageHeader.decode (leBytes 4 M ++ (leBytes 2 len ++ ([mo, tbd] ++ suffix))) 0 =
      some { module_key := (M >>> 16) &&& 65535, message_key := M &&& 65535
             length := len, max_ordinal := mo, tbd := tbd } := by
  have hlen4 : (leBytes 4 M).length = 4 := leBytes_length _ _
  have hlen2 : (leBytes 2 len).length = 2 := leBytes_length _ _
  have hDlen : (leBytes 4 M ++ (leBytes 2 len ++ ([mo, tbd] ++ suffix))).length
      = 8 + suffix.length := by
    simp only [List.length_append, List.length_cons, List.length_nil, hlen4, hlen2]
    omega
  have h0 : leVal (leBytes 4 M ++ (leBytes 2 len ++ ([mo, tbd] ++ suffix))) 0 4 = M :=
    leVal_leBytes_here _ (by simpa using hMlt)
  have h4 : leVal (leBytes 4 M ++ (leBytes 2 len ++ ([mo, tbd] ++ suffix))) 4 2 = len := by
    rw [leVal_skip _ _ 4 2 hlen4.symm]
    exact leVal_leBytes_here _ (by simpa using hlen)
  have h6 : (leBytes 4 M ++ (leBytes 2 len ++ ([mo, tbd] ++ suffix))).getD 6 0 = mo := by
    rw [getD_skip _ _ 6 2 (by rw [hlen4]), getD_skip _ _ 2 0 (by rw [hlen2])]
    rfl
  have h7 : (leBytes 4 M ++ (leBytes 2 len ++ ([mo, tbd] ++ suffix))).getD 7 0 = tbd := by
    rw [getD_skip _ _ 7 3 (by rw [hlen4]), getD_skip _ _ 3 1 (by rw [hlen2])]
    rfl
  unfold MessageHeader.decode
  rw [if_neg (show ¬ ((leBytes 4 M ++ (leBytes 2 len ++ ([mo, tbd] ++ suffix))).length - 0 < 8)
        from by omega)]
  simp only [Nat.zero_add, Nat.add_zero, h0, h4, h6, h7]

/-- Encoding a message header and decoding it (with anything appended)
returns the key fields reduced mod `2^16` and the rest unchanged. -/
theorem MessageHeader.decode_encode {h : MessageHeader} {hb : List Nat}
    (henc : h.encode = some hb) (suffix : List Nat) :
    MessageHeader.decode (hb ++ suffix) 0 =
      some { module_key := h.module_key % 65536, message_key := h.message_key % 65536
             length := h.length, max_ordinal := h.max_ordinal, tbd := h.tbd } := by
  unfold MessageHeader.encode at henc
  split at henc
  case isFalse => exact absurd henc (by simp)
  case isTrue hcond =>
    obtain ⟨hlen, hmo, htbd⟩ := hcond
    injection henc with hbytes
    subst hbytes
    have hM := moduleMessageKey_eq h.module_key h.message_key
    have hMlt := moduleMessageKey_lt h.module_key h.message_key
    have hmk : h.module_key % 65536 < 65536 := Nat.mod_lt _ (by omega)
    have hgk : h.message_key % 65536 < 65536 := Nat.mod_lt _ (by omega)
    have hassoc : (leBytes 4 (moduleMessageKey h.module_key h.message_key) ++
          leBytes 2 h.length ++ [h.max_ordinal, h.tbd]) ++ suffix
        = leBytes 4 (moduleMessageKey h.module_key h.message_key) ++
          (leBytes 2 h.length ++ ([h.max_ordinal, h.tbd] ++ suffix)) := by
      simp [List.append_assoc]
    rw [hassoc, MessageHeader.decode_bytes _ _ _ _ _ hMlt hlen]
    refine congrArg some ?_
    rw [shiftRight16_eq_div, and_65535_eq_mod, and_65535_eq_mod]
    simp only [MessageHeader.mk.injEq]
    refine ⟨by omega, by omega, trivial, trivial, trivial⟩

/-! ## Alignment and message-framing lemmas -/

theorem align4_mod (n : Nat) : align4 n % 4 = 0 := by unfold align4; omega

theorem le_align4 (n : Nat) : n ≤ align4 n := by unfold align4; omega

theorem align4_lt (n : Nat) : align4 n < n + 4 := by unfold align4; omega

theorem maskKey_lt (k : Int) : maskKey k < 65536 := by
  unfold maskKey
  have h1 : 0 ≤ k % 65536 := Int.emod_nonneg k (by omega)
  have h2 : k % 65536 < 65536 := Int.emod_lt_of_pos k (by omega)
  omega

theorem MessageHeader.encode_length {h : MessageHeader} {hb : List Nat}
    (henc : h.encode = some hb) : hb.length = 8 := by
  unfold MessageHeader.encode at henc
  split at henc
  · injection henc with hb'
    subst hb'
    simp [leBytes_length]
  · exact absurd henc (by simp)

/-- `serialize_message` as an explicit chain of `Option.bind`s. -/
theorem serializeMessage_eq (fields : List Ann) (vs : List Value) (mk gk : Int) :
    serializeMessage fields vs mk gk =
      (Serializer.serializeModel { Serializer.init with base_offset := 8 } fields vs).bind
        fun s => (s.finalize).bind fun body =>
          (MessageHeader.encode
            { module_key := maskKey mk, message_key := maskKey gk,
              length := align4 (8 + body.length) / 4,
              max_ordinal := s.field_count + 3 - 1, tbd := 0 }).bind fun hdr =>
              some (hdr ++ body ++
                List.replicate (align4 (8 + body.length) - 8 - body.length) 0) := rfl

/-- Invert a successful `serialize_message` into its serializer run, body and
header bytes. -/
theorem serializeMessage_inv {fields : List Ann} {vs : List Value} {mk gk : Int}
    {out : List Nat} (hsm : serializeMessage fields vs mk gk = some out) :
    ∃ s body hdr,
      Serializer.serializeModel { Serializer.init with base_offset := 8 } fields vs = some s ∧
      s.finalize = some body ∧
      MessageHeader.encode { module_key := maskKey mk, message_key := maskKey gk
                             length := align4 (8 + body.length) / 4
                             max_ordinal := s.field_count + 3 - 1, tbd := 0 } = some hdr ∧
      out = hdr ++ body ++ List.replicate (align4 (8 + body.length) - 8 - body.length) 0 := by
  rw [serializeMessage_eq] at hsm
  rw [Option.bind_eq_some] at hsm
  obtain ⟨s, hs, hsm⟩ := hsm
  rw [Option.bind_eq_some] at hsm
  obtain ⟨body, hbody, hsm⟩ := hsm
  rw [Option.bind_eq_some] at hsm
  obtain ⟨hdr, hhdr, hsm⟩ := hsm
  injection hsm with hsm
  exact ⟨s, body, hdr, hs, hbody, hhdr, hsm.symm⟩

theorem bind_isSome_congr {α β : Type} {x : Option α} {f g : α → Option β}
    (h : ∀ a, (f a).isSome = (g a).isSome) : (x.bind f).isSome = (x.bind g).isSome := by
  cases x with
  | none => rfl
  | some a => simpa using h a

/-- Whether `serialize_message` succeeds does not depend on the keys. -/
theorem serializeMessage_isSome_keys (fields : List Ann) (vs : List Value)
    (mk1 gk1 mk2 gk2 : Int) :
    (serializeMessage fields vs mk1 gk1).isSome = (serializeMessage fields vs mk2 gk2).isSome := by
  rw [serializeMessage_eq, serializeMessage_eq]
  refine bind_isSome_congr fun s => ?_
  refine bind_isSome_congr fun body => ?_
  unfold MessageHeader.encode
  split <;> simp

/-! ## C9 -/

/-- C9: for all integer keys, also outside 16-bit range, `serialize_message`
and `empty_message` store the keys reduced mod `2^16` without failing
(success is key-independent), and decoding the produced header returns
exactly the reduced keys. -/
theorem c9_keys_masked (module_key message_key : Int) :
    (∃ em, emptyMessage module_key message_key = some em ∧
       MessageHeader.decode em 0 =
         some { module_key := maskKey module_key, message_key := maskKey message_key
                length := 2, max_ordinal := 2, tbd := 0 }) ∧
    (∀ fields vs out, serializeMessage fields vs module_key message_key = some out →
       ∃ h, MessageHeader.decode out 0 = some h ∧
         h.module_key = maskKey module_key ∧ h.message_key = maskKey message_key) ∧
    (∀ fields vs (mk2 gk2 : Int),
       (serializeMessage fields vs module_key message_key).isSome
         = (serializeMessage fields vs mk2 gk2).isSome) := by
  have hmk := maskKey_lt module_key
  have hgk := maskKey_lt message_key
  refine ⟨?_, ?_, ?_⟩
  · have henc : emptyMessage module_key message_key =
        MessageHeader.encode { module_key := maskKey module_key
                               message_key := maskKey message_key
                               length := 2, max_ordinal := 2, tbd := 0 } := rfl
    cases hem : emptyMessage module_key message_key with
    | none =>
      rw [henc] at hem
      unfold MessageHeader.encode at hem
      rw [if_pos (by refine ⟨?_, ?_, ?_⟩ <;> norm_num)] at hem
      exact absurd hem (by simp)
    | some em =>
      refine ⟨em, rfl, ?_⟩
      rw [henc] at hem
      have hdec := MessageHeader.decode_encode hem []
      rw [List.append_nil] at hdec
      rw [hdec]
      refine congrArg some ?_
      simp only [MessageHeader.mk.injEq]
      exact ⟨Nat.mod_eq_of_lt hmk, Nat.mod_eq_of_lt hgk, trivial, trivial, trivial⟩
  · intro fields vs out hsm
    obtain ⟨s, body, hdr, hs, hbody, hhdr, hout⟩ := serializeMessage_inv hsm
    subst hout
    have hdec := MessageHeader.decode_encode hhdr
      (body ++ List.replicate (align4 (8 + body.length) - 8 - body.length) 0)
    dsimp only at hdec
    rw [Nat.mod_eq_of_lt hmk, Nat.mod_eq_of_lt hgk] at hdec
    rw [List.append_assoc]
    exact ⟨_, hdec, rfl, rfl⟩
  · intro fields vs mk2 gk2
    exact serializeMessage_isSome_keys fields vs module_key message_key mk2 gk2

/-- Witness for C9 at concrete out-of-range keys `-1` and `70000`:
`maskKey (-1) = 65535` and `maskKey 70000 = 4464` are stored and decoded. -/
theorem c9_keys_masked_witness :
    (∃ em, emptyMessage (-1) 70000 = some em ∧
       MessageHeader.decode em 0 =
         some { module_key := maskKey (-1), message_key := maskKey 70000
                length := 2, max_ordinal := 2, tbd := 0 }) ∧
    (∃ h, MessageHeader.decode [112, 17, 255, 255, 3, 0, 3, 0, 7, 0, 0, 0] 0 = some h ∧
       h.module_key = maskKey (-1) ∧ h.message_key = maskKey 70000) := by
  obtain ⟨h1, h2, _⟩ := c9_keys_masked (-1) 70000
  exact ⟨h1, h2 [Ann.wire 4] [Value.wire 7] _ rfl⟩

/-! ## Packet-framing lemmas -/

theorem crcShift_lt (c : Nat) : crcShift c < 65536 := by
  unfold crcShift
  split
  · exact Nat.mod_lt _ (by omega)
  · exact Nat.mod_lt _ (by omega)

theorem crcByte_lt (c b : Nat) : crcByte c b < 65536 := by
  unfold crcByte crcShift8
  exact crcShift_lt _

theorem crc16_ccitt_lt (data : List Nat) : crc16_ccitt data < 65536 := by
  unfold crc16_ccitt
  have h : ∀ (l : List Nat) (init : Nat), init < 65536 → l.foldl crcByte init < 65536 := by
    intro l
    induction l with
    | nil => intro init hinit; exact hinit
    | cons b bs ih => intro init _; exact ih _ (crcByte_lt init b)
  exact h data 0xFFFF (by omega)

/-- `serialize_packet` as an explicit `Option.bind`. -/
theorem serializePacket_eq (messages : List (List Nat)) :
    serializePacket messages =
      (PacketHeader.encode
        { length_words := align4 (8 + messages.flatten.length) / 4,
          crc := crc16_ccitt (messages.flatten ++
            List.replicate (align4 (8 + messages.flatten.length) - 8 -
              messages.flatten.length) 0) }).bind
        fun hdr => some (hdr ++ (messages.flatten ++
          List.replicate (align4 (8 + messages.flatten.length) - 8 -
            messages.flatten.length) 0)) := rfl

/-- Invert a successful `serialize_packet` into its message-region bytes. -/
theorem serializePacket_inv {messages : List (List Nat)} {out : List Nat}
    (hsp : serializePacket messages = some out) :
    align4 (8 + messages.flatten.length) / 4 < 65536 ∧
    out = PACKET_MAGIC ++ leBytes 2 (align4 (8 + messages.flatten.length) / 4) ++
      leBytes 2 (crc16_ccitt (messages.flatten ++
        List.replicate (align4 (8 + messages.flatten.length) - 8 -
          messages.flatten.length) 0)) ++
      (messages.flatten ++ List.replicate (align4 (8 + messages.flatten.length) - 8 -
        messages.flatten.length) 0) := by
  rw [serializePacket_eq] at hsp
  unfold PacketHeader.encode at hsp
  split at hsp
  case isTrue hcond =>
    simp only [Option.some_bind, Option.some.injEq] at hsp
    refine ⟨hcond.1, ?_⟩
    rw [← hsp]
  case isFalse hcond =>
    exact absurd hsp (by simp)

/-- Decode the explicit 8 packet-header bytes with anything appended. -/
theorem PacketHeader.decode_magic_bytes (lw crc : Nat) (suffix : List Nat)
    (hlw : lw < 65536) (hcrc : crc < 65536) :
    PacketHeader.decode (PACKET_MAGIC ++ (leBytes 2 lw ++ (leBytes 2 crc ++ suffix))) 0 =
      some { length_words := lw, crc := crc } := by
  have hm : PACKET_MAGIC.length = 4 := rfl
  have hl2 : (leBytes 2 lw).length = 2 := leBytes_length _ _
  have hc2 : (leBytes 2 crc).length = 2 := leBytes_length _ _
  have hTlen : (PACKET_MAGIC ++ (leBytes 2 lw ++ (leBytes 2 crc ++ suffix))).length
      = 8 + suffix.length := by
    simp only [List.length_append, hm, hl2, hc2]
    omega
  have hmagic : slice (PACKET_MAGIC ++ (leBytes 2 lw ++ (leBytes 2 crc ++ suffix))) 0 4
      = PACKET_MAGIC := by
    unfold slice
    rw [List.drop_zero]
    rw [show (4 : Nat) - 0 = PACKET_MAGIC.length from rfl]
    exact List.take_left _ _
  have h4 : leVal (PACKET_MAGIC ++ (leBytes 2 lw ++ (leBytes 2 crc ++ suffix))) 4 2 = lw := by
    rw [leVal_skip _ _ 4 2 hm.symm]
    exact leVal_leBytes_here _ (by simpa using hlw)
  have h6 : leVal (PACKET_MAGIC ++ (leBytes 2 lw ++ (leBytes 2 crc ++ suffix))) 6 2 = crc := by
    have hassoc : PACKET_MAGIC ++ (leBytes 2 lw ++ (leBytes 2 crc ++ suffix))
        = (PACKET_MAGIC ++ leBytes 2 lw) ++ (leBytes 2 crc ++ suffix) := by
      simp [List.append_assoc]
    rw [hassoc, leVal_skip _ _ 6 2 (by simp [hm, hl2])]
    exact leVal_leBytes_here _ (by simpa using hcrc)
  unfold PacketHeader.decode
  rw [if_neg (show ¬ ((PACKET_MAGIC ++ (leBytes 2 lw ++ (leBytes 2 crc ++ suffix))).length - 0
        < 8) from by omega)]
  rw [if_neg (show ¬ (slice (PACKET_MAGIC ++ (leBytes 2 lw ++ (leBytes 2 crc ++ suffix))) (0)
        (0 + 4) ≠ PACKET_MAGIC) from by simpa using hmagic)]
  simp only [Nat.zero_add, h4, h6]

/-- Byte length and embedded length field of a `serialize_message` output. -/
theorem serializeMessage_length {fields : List Ann} {vs : List Value} {mk gk : Int}
    {out : List Nat} (hsm : serializeMessage fields vs mk gk = some out) :
    out.length % 4 = 0 ∧
    ∃ h, MessageHeader.decode out 0 = some h ∧ h.length * 4 = out.length := by
  obtain ⟨s, body, hdr, hs, hbody, hhdr, hout⟩ := serializeMessage_inv hsm
  have hhlen : hdr.length = 8 := MessageHeader.encode_length hhdr
  have hle := le_align4 (8 + body.length)
  have hmod := align4_mod (8 + body.length)
  have houtlen : out.length = align4 (8 + body.length) := by
    subst hout
    simp only [List.length_append, List.length_replicate, hhlen]
    omega
  have hlw : align4 (8 + body.length) / 4 < 65536 := by
    unfold MessageHeader.encode at hhdr
    split at hhdr
    case isTrue hcond => exact hcond.1
    case isFalse => exact absurd hhdr (by simp)
  refine ⟨by omega, ?_⟩
  have hdec := MessageHeader.decode_encode hhdr
    (body ++ List.replicate (align4 (8 + body.length) - 8 - body.length) 0)
  dsimp only at hdec
  rw [← List.append_assoc, ← hout] at hdec
  refine ⟨_, hdec, ?_⟩
  dsimp only
  omega

/-- Byte length and embedded length field of a `serialize_packet` output. -/
theorem serializePacket_length {messages : List (List Nat)} {out : List Nat}
    (hsp : serializePacket messages = some out) :
    out.length % 4 = 0 ∧
    ∃ h, PacketHeader.decode out 0 = some h ∧ h.length_words * 4 = out.length := by
  obtain ⟨hlw, hout⟩ := serializePacket_inv hsp
  have hle := le_align4 (8 + messages.flatten.length)
  have hmod := align4_mod (8 + messages.flatten.length)
  have houtlen : out.length = align4 (8 + messages.flatten.length) := by
    subst hout
    simp only [List.length_append, List.length_replicate, leBytes_length]
    show 4 + 2 + 2 + _ = _
    omega
  refine ⟨by omega, ?_⟩
  have hdec := PacketHeader.decode_magic_bytes (align4 (8 + messages.flatten.length) / 4)
    (crc16_ccitt (messages.flatten ++ List.replicate (align4 (8 + messages.flatten.length)
      - 8 - messages.flatten.length) 0))
    (messages.flatten ++ List.replicate (align4 (8 + messages.flatten.length)
      - 8 - messages.flatten.length) 0) hlw (crc16_ccitt_lt _)
  have hassoc : PACKET_MAGIC ++ leBytes 2 (align4 (8 + messages.flatten.length) / 4) ++
      leBytes 2 (crc16_ccitt (messages.flatten ++
        List.replicate (align4 (8 + messages.flatten.length) - 8 -
          messages.flatten.length) 0)) ++
      (messages.flatten ++ List.replicate (align4 (8 + messages.flatten.length) - 8 -
        messages.flatten.length) 0)
      = PACKET_MAGIC ++ (leBytes 2 (align4 (8 + messages.flatten.length) / 4) ++
        (leBytes 2 (crc16_ccitt (messages.flatten ++
          List.replicate (align4 (8 + messages.flatten.length) - 8 -
            messages.flatten.length) 0)) ++
        (messages.flatten ++ List.replicate (align4 (8 + messages.flatten.length) - 8 -
          messages.flatten.length) 0))) := by
    simp [List.append_assoc]
  rw [← hassoc, ← hout] at hdec
  refine ⟨_, hdec, ?_⟩
  dsimp only
  omega

/-! ## C5 -/

/-- C5: every `serialize_message` output has a length that is a multiple of 4
and equals the embedded header length field times 4; likewise every
`serialize_packet` output with its `length_words` field. -/
theorem c5_word_alignment_header_consistency :
    (∀ fields vs (mk gk : Int) out, serializeMessage fields vs mk gk = some out →
       out.length % 4 = 0 ∧
       ∃ h, MessageHeader.decode out 0 = some h ∧ h.length * 4 = out.length) ∧
    (∀ messages out, serializePacket messages = some out →
       out.length % 4 = 0 ∧
       ∃ h, PacketHeader.decode out 0 = some h ∧ h.length_words * 4 = out.length) :=
  ⟨fun _ _ _ _ _ hsm => serializeMessage_length hsm,
   fun _ _ hsp => serializePacket_length hsp⟩

set_option maxRecDepth 4000 in
/-- Witness for C5 at a concrete one-field message and its one-message
packet. -/
theorem c5_word_alignment_header_consistency_witness :
    ((12 : Nat) % 4 = 0 ∧
     ∃ h, MessageHeader.decode [0, 0, 1, 0, 3, 0, 3, 0, 7, 0, 0, 0] 0 = some h ∧
       h.length * 4 = 12) ∧
    ((20 : Nat) % 4 = 0 ∧
     ∃ h, PacketHeader.decode
       [66, 108, 117, 101, 5, 0, 4, 188, 0, 0, 1, 0, 3, 0, 3, 0, 7, 0, 0, 0] 0
       = some h ∧ h.length_words * 4 = 20) := by
  obtain ⟨h1, h2⟩ := c5_word_alignment_header_consistency
  constructor
  · have := h1 [Ann.wire 4] [Value.wire 7] 1 0 [0, 0, 1, 0, 3, 0, 3, 0, 7, 0, 0, 0] rfl
    simpa using this
  · have := h2 [[0, 0, 1, 0, 3, 0, 3, 0, 7, 0, 0, 0]]
      [66, 108, 117, 101, 5, 0, 4, 188, 0, 0, 1, 0, 3, 0, 3, 0, 7, 0, 0, 0] rfl
    simpa using this

/-! ## Field-count lemmas (C3) -/

theorem writePadding_field_count (s : Serializer) (size : Nat) :
    (s.writePadding size).field_count = s.field_count := by
  unfold Serializer.writePadding
  split
  · rfl
  · dsimp only
    split <;> (split <;> rfl)

theorem writeBool_field_count (s : Serializer) (v : Bool) :
    (s.writeBool v).field_count = s.field_count := by
  unfold Serializer.writeBool
  cases hb : s.bool_byte_offset with
  | some off =>
    dsimp only
    split
    · rfl
    · rfl
  | none =>
    dsimp only
    rw [writePadding_field_count]

theorem writePrimitive_field_count {s : Serializer} {size value : Nat} {s' : Serializer}
    (h : s.writePrimitive size value = some s') : s'.field_count = s.field_count := by
  unfold Serializer.writePrimitive at h
  split at h
  · injection h with h
    subst h
    dsimp only
    rw [writePadding_field_count]
    rfl
  · exact absurd h (by simp)

theorem writeString_field_count {s : Serializer} {bytes : List Nat} {s' : Serializer}
    (h : s.writeString bytes = some s') : s'.field_count = s.field_count := by
  unfold Serializer.writeString at h
  split at h
  · injection h with h
    subst h
    dsimp only
    rw [writePadding_field_count]
    rfl
  · exact absurd h (by simp)

theorem writeSequence_field_count {s : Serializer} {elem : Ann} {values : List Value}
    {s' : Serializer} (h : s.writeSequence elem values = some s') :
    s'.field_count = s.field_count := by
  unfold Serializer.writeSequence at h
  split at h
  case isFalse => exact absurd h (by simp)
  case isTrue =>
    rw [Option.bind_eq_some] at h
    obtain ⟨elemBytes, _, h⟩ := h
    rw [Option.bind_eq_some] at h
    obtain ⟨first, _, h⟩ := h
    dsimp only at h
    split at h
    · injection h with h
      subst h
      dsimp only
      rw [writePadding_field_count]
      rfl
    · exact absurd h (by simp)

/-- The field-count effect of the shared field loop, given the effect of
every field in the list. -/
theorem serializeFieldList_field_count_aux :
    ∀ (fs : List Ann) (vs : List Value) (s s' : Serializer),
      (∀ a ∈ fs, ∀ (v : Value) (t t' : Serializer),
        Serializer.serializeField t a v = some t' →
          t'.field_count = t.field_count + annExtra a) →
      Serializer.serializeFieldList s fs vs = some s' →
      s'.field_count = s.field_count + annsCount fs := by
  intro fs
  induction fs with
  | nil =>
    intro vs s s' _ h
    cases vs with
    | nil =>
      injection h with h
      subst h
      simp [annsCount]
    | cons v vs => exact absurd h (by simp [Serializer.serializeFieldList])
  | cons f fs ih =>
    intro vs s s' hfields h
    cases vs with
    | nil => exact absurd h (by simp [Serializer.serializeFieldList])
    | cons v vs =>
      unfold Serializer.serializeFieldList at h
      rw [Option.bind_eq_bind', Option.bind_eq_some] at h
      obtain ⟨t, ht, hrest⟩ := h
      have h1 := hfields f (by simp) v _ _ ht
      have h2 := ih vs t s' (fun a ha => hfields a (by simp [ha])) hrest
      simp only at h1
      rw [h2, h1]
      simp [annsCount]
      omega

theorem serializeField_field_count_aux :
    ∀ (n : Nat) (a : Ann), sizeOf a ≤ n → ∀ (v : Value) (s s' : Serializer),
      Serializer.serializeField s a v = some s' →
      s'.field_count = s.field_count + annExtra a := by
  intro n
  induction n using Nat.strong_induction_on with
  | _ n ih =>
    intro a hsize v s s' h
    cases a with
    | wire size =>
      cases v <;> simp [Serializer.serializeField] at h
      rw [writePrimitive_field_count h]
      simp [annExtra]
    | bool =>
      cases v <;> simp [Serializer.serializeField] at h
      rw [← h, writeBool_field_count]
      simp [annExtra]
    | str =>
      cases v <;> simp [Serializer.serializeField] at h
      rw [writeString_field_count h]
      simp [annExtra]
    | list elem =>
      cases v <;> simp [Serializer.serializeField] at h
      rw [writeSequence_field_count h]
      simp [annExtra]
    | model fields =>
      cases v <;> simp [Serializer.serializeField] at h
      rename_i vs
      have hmem : ∀ a ∈ fields, ∀ (v : Value) (t t' : Serializer),
          Serializer.serializeField t a v = some t' →
            t'.field_count = t.field_count + annExtra a := by
        intro a ha
        have hlt : sizeOf a < n := by
          have h1 : sizeOf a < sizeOf fields := List.sizeOf_lt_of_mem ha
          have h2 : sizeOf (Ann.model fields) = 1 + sizeOf fields := by
            simp [Ann.model.sizeOf_spec]
          omega
        exact ih (sizeOf a) hlt a (Nat.le_refl _)
      rw [serializeFieldList_field_count_aux fields vs s s' hmem h]
      simp [annExtra]

/-- `_serialize_field` adds exactly `annExtra` to `field_count` (beyond the
increment its caller performs). -/
theorem serializeField_field_count {a : Ann} {v : Value} {s s' : Serializer}
    (h : Serializer.serializeField s a v = some s') :
    s'.field_count = s.field_count + annExtra a :=
  serializeField_field_count_aux (sizeOf a) a (Nat.le_refl _) v s s' h

/-- `serialize_model` increments `field_count` by `annsCount`. -/
theorem serializeModel_field_count {fields : List Ann} {vs : List Value} {s s' : Serializer}
    (h : Serializer.serializeModel s fields vs = some s') :
    s'.field_count = s.field_count + annsCount fields :=
  serializeFieldList_field_count_aux fields vs s s'
    (fun a _ v t t' ht => serializeField_field_count ht) h

/-- Byte 6 of an encoded message header (with anything appended) is
`max_ordinal`. -/
theorem MessageHeader.encode_getD6 {h : MessageHeader} {hb : List Nat}
    (henc : h.encode = some hb) (rest : List Nat) :
    (hb ++ rest).getD 6 0 = h.max_ordinal := by
  unfold MessageHeader.encode at henc
  split at henc
  case isFalse => exact absurd henc (by simp)
  case isTrue =>
    injection henc with hbytes
    subst hbytes
    have hassoc : (leBytes 4 (moduleMessageKey h.module_key h.message_key) ++
          leBytes 2 h.length ++ [h.max_ordinal, h.tbd]) ++ rest
        = leBytes 4 (moduleMessageKey h.module_key h.message_key) ++
          (leBytes 2 h.length ++ ([h.max_ordinal, h.tbd] ++ rest)) := by
      simp [List.append_assoc]
    rw [hassoc, getD_skip _ _ 6 2 (by rw [leBytes_length]),
        getD_skip _ _ 2 0 (by rw [leBytes_length])]
    rfl

/-! ## C3 -/

set_option maxRecDepth 8000 in
set_option maxHeartbeats 1000000 in
/-- C3 counterexample: for a body with a nested two-field record followed by
one scalar, the message's `max_ordinal` byte (offset 6) is 6, not
`top-level field count + 2 = 4` as the claim states. -/
theorem c3_max_ordinal_counterexample :
    serializeMessage [Ann.model [Ann.wire 1, Ann.wire 1], Ann.wire 1]
        [Value.model [Value.wire 1, Value.wire 2], Value.wire 3] 0 0
      = some [0, 0, 0, 0, 3, 0, 6, 0, 1, 2, 3, 0] ∧
    [0, 0, 0, 0, 3, 0, 6, 0, 1, 2, 3, 0].getD 6 0 = 6 ∧
    topLevelCount [Ann.model [Ann.wire 1, Ann.wire 1], Ann.wire 1] + 2 = 4 ∧
    (6 : Nat) ≠ 4 :=
  ⟨rfl, rfl, rfl, by omega⟩

/-- C3 amended: the `max_ordinal` byte (offset 6) of a `serialize_message`
output equals `F + 2`, where `F` counts one per field visited, a nested
record field contributing one for itself plus its (recursively counted)
sub-fields; for flat records `F` is the top-level field count.
`empty_message` sets `max_ordinal = 2`. -/
theorem c3_max_ordinal_amended :
    (∀ fields vs (mk gk : Int) out, serializeMessage fields vs mk gk = some out →
       out.getD 6 0 = annsCount fields + 2) ∧
    (∀ (mk gk : Int) em, emptyMessage mk gk = some em → em.getD 6 0 = 2) := by
  constructor
  · intro fields vs mk gk out hsm
    obtain ⟨s, body, hdr, hs, hbody, hhdr, hout⟩ := serializeMessage_inv hsm
    have hfc : s.field_count = annsCount fields := by
      have := serializeModel_field_count hs
      simpa [Serializer.init] using this
    have h6 := MessageHeader.encode_getD6 hhdr
      (body ++ List.replicate (align4 (8 + body.length) - 8 - body.length) 0)
    rw [← List.append_assoc, ← hout] at h6
    rw [h6]
    dsimp only
    omega
  · intro mk gk em hem
    have h6 := MessageHeader.encode_getD6 hem []
    rw [List.append_nil] at h6
    exact h6

set_option maxRecDepth 8000 in
set_option maxHeartbeats 1000000 in
/-- Witness for the amended C3 at the counterexample schema and a concrete
empty message. -/
theorem c3_max_ordinal_amended_witness :
    [0, 0, 0, 0, 3, 0, 6, 0, 1, 2, 3, 0].getD 6 0 =
      annsCount [Ann.model [Ann.wire 1, Ann.wire 1], Ann.wire 1] + 2 ∧
    [2, 0, 1, 0, 2, 0, 2, 0].getD 6 0 = 2 := by
  obtain ⟨h1, h2⟩ := c3_max_ordinal_amended
  exact ⟨h1 [Ann.model [Ann.wire 1, Ann.wire 1], Ann.wire 1]
          [Value.model [Value.wire 1, Value.wire 2], Value.wire 3] 0 0 _ rfl,
         h2 1 2 _ rfl⟩

/-! ## C1 -/

set_option maxRecDepth 8000 in
set_option maxHeartbeats 1000000 in
/-- C1: the round-trip law breaks for `serialize_message`/`deserialize_message`
on a schema with a nested record followed by another field.  The nested
`deserialize_model` call runs `_skip_to_message_end`, jumping the cursor to
the message end, so the following field is read past the buffer and the
decode raises (`none`).  The headerless `serialize`/`deserialize` pair
round-trips the same value, isolating the slip to the message path. -/
theorem c1_roundtrip_code_bug :
    serializeMessage [Ann.model [Ann.wire 1], Ann.wire 1]
        [Value.model [Value.wire 1], Value.wire 2] 0 0
      = some [0, 0, 0, 0, 3, 0, 5, 0, 1, 2, 0, 0] ∧
    deserializeMessage [0, 0, 0, 0, 3, 0, 5, 0, 1, 2, 0, 0]
        [Ann.model [Ann.wire 1], Ann.wire 1] = none ∧
    serialize [Ann.model [Ann.wire 1], Ann.wire 1]
        [Value.model [Value.wire 1], Value.wire 2] = some [1, 2] ∧
    deserialize [1, 2] [Ann.model [Ann.wire 1], Ann.wire 1]
      = some [Value.model [Value.wire 1], Value.wire 2] :=
  ⟨rfl, rfl, rfl, rfl⟩

/-! ## Bool-packing lemmas (C8) -/

theorem writePadding_one (s : Serializer) : s.writePadding 1 = s := by
  unfold Serializer.writePadding
  rw [if_pos (Or.inr (Nat.le_refl 1))]

/-- `_write_bool` with no active shared byte appends a fresh byte. -/
theorem writeBool_inactive {s : Serializer} (h : s.bool_byte_offset = none) (b : Bool) :
    s.writeBool b = { s with buf := s.buf ++ [if b then 1 else 0], pos := s.pos + 1
                             bool_bit_pos := 1, bool_byte_offset := some s.buf.length } := by
  unfold Serializer.writeBool
  rw [h]
  dsimp only
  rw [writePadding_one]

/-- `_write_bool` with an active shared byte at the end of the buffer sets
bit `bool_bit_pos` of that byte, closing the byte after bit 7. -/
theorem writeBool_active {s : Serializer} {B : List Nat} {cur : Nat}
    (hbuf : s.buf = B ++ [cur]) (hoff : s.bool_byte_offset = some B.length) (b : Bool) :
    s.writeBool b =
      if 8 ≤ s.bool_bit_pos + 1 then
        { s with buf := B ++ [cur ||| ((if b then 1 else 0) <<< s.bool_bit_pos)]
                 bool_bit_pos := 0, bool_byte_offset := none }
      else
        { s with buf := B ++ [cur ||| ((if b then 1 else 0) <<< s.bool_bit_pos)]
                 bool_bit_pos := s.bool_bit_pos + 1 } := by
  have hget : s.buf.getD B.length 0 = cur := by
    rw [hbuf]
    have := getD_append_right_self B [cur] 0
    simpa using this
  have hset : ∀ x, s.buf.set B.length x = B ++ [x] := by
    intro x
    rw [hbuf, List.set_append_right _ _ (Nat.le_refl _)]
    simp
  have hbufU : (if b then s.buf.set B.length (s.buf.getD B.length 0 ||| 1 <<< s.bool_bit_pos)
      else s.buf) = B ++ [cur ||| ((if b then 1 else 0) <<< s.bool_bit_pos)] := by
    cases b with
    | true =>
      rw [if_pos rfl, hget, hset]
      simp
    | false =>
      rw [if_neg (by simp)]
      rw [hbuf]
      simp [Nat.zero_shiftLeft]
  unfold Serializer.writeBool
  rw [hoff]
  dsimp only
  rw [hbufU]

theorem packAux_cons (cur r : Nat) (b : Bool) (bs : List Bool) :
    packAux cur r (b :: bs) =
      if 8 ≤ r + 1 then (cur ||| ((if b then 1 else 0) <<< r)) :: packBools bs
      else packAux (cur ||| ((if b then 1 else 0) <<< r)) (r + 1) bs := rfl

/-- Running the shared field loop over a run of booleans from a flushed bool
state appends exactly `packBools`, touching no blocks or fixups; from an
active shared byte `cur` with next bit `r` it appends `packAux cur r`. -/
theorem boolRun : ∀ (bs : List Bool),
    (∀ s : Serializer, s.bool_byte_offset = none →
       ∃ s', Serializer.serializeFieldList s (List.replicate bs.length Ann.bool)
           (bs.map Value.bool) = some s' ∧
         s'.buf = s.buf ++ packBools bs ∧
         s'.seq_data_blocks = s.seq_data_blocks ∧ s'.seq_fixups = s.seq_fixups) ∧
    (∀ (B : List Nat) (cur r : Nat) (s : Serializer),
       s.buf = B ++ [cur] → s.bool_byte_offset = some B.length → s.bool_bit_pos = r →
       1 ≤ r → r ≤ 7 →
       ∃ s', Serializer.serializeFieldList s (List.replicate bs.length Ann.bool)
           (bs.map Value.bool) = some s' ∧
         s'.buf = B ++ packAux cur r bs ∧
         s'.seq_data_blocks = s.seq_data_blocks ∧ s'.seq_fixups = s.seq_fixups) := by
  intro bs
  induction bs with
  | nil =>
    constructor
    · intro s _
      exact ⟨s, rfl, by simp [packBools], rfl, rfl⟩
    · intro B cur r s hbuf _ _ _ _
      exact ⟨s, rfl, by rw [hbuf]; simp [packAux], rfl, rfl⟩
  | cons b tl ih =>
    obtain ⟨ih1, ih2⟩ := ih
    constructor
    · intro s hoff
      have hw := writeBool_inactive (s := { s with field_count := s.field_count + 1 }) hoff b
      dsimp only at hw
      have hstep : Serializer.serializeFieldList s
          (List.replicate (b :: tl).length Ann.bool) ((b :: tl).map Value.bool)
          = Serializer.serializeFieldList
              ({ s with field_count := s.field_count + 1 }.writeBool b)
              (List.replicate tl.length Ann.bool) (tl.map Value.bool) := by
        simp only [List.length_cons, List.replicate_succ, List.map_cons]
        rfl
      rw [hstep, hw]
      obtain ⟨s', hrun, hbuf', hblocks', hfix'⟩ := ih2 s.buf (if b then 1 else 0) 1
        { s with buf := s.buf ++ [if b then 1 else 0], pos := s.pos + 1
                 bool_bit_pos := 1, bool_byte_offset := some s.buf.length
                 field_count := s.field_count + 1 }
        rfl rfl rfl (Nat.le_refl _) (by omega)
      exact ⟨s', hrun, by rw [hbuf']; rfl, hblocks', hfix'⟩
    · intro B cur r s hbuf hoff hbit hr1 hr7
      subst hbit
      have hw := writeBool_active (s := { s with field_count := s.field_count + 1 })
        hbuf hoff b
      dsimp only at hw
      have hstep : Serializer.serializeFieldList s
          (List.replicate (b :: tl).length Ann.bool) ((b :: tl).map Value.bool)
          = Serializer.serializeFieldList
              ({ s with field_count := s.field_count + 1 }.writeBool b)
              (List.replicate tl.length Ann.bool) (tl.map Value.bool) := by
        simp only [List.length_cons, List.replicate_succ, List.map_cons]
        rfl
      rw [hstep, hw]
      by_cases hcase : 8 ≤ s.bool_bit_pos + 1
      · rw [if_pos hcase]
        obtain ⟨s', hrun, hbuf', hblocks', hfix'⟩ := ih1
          { s with field_count := s.field_count + 1
                   buf := B ++ [cur ||| ((if b then 1 else 0) <<< s.bool_bit_pos)]
                   bool_bit_pos := 0, bool_byte_offset := none } rfl
        refine ⟨s', hrun, ?_, hblocks', hfix'⟩
        rw [hbuf']
        show B ++ [cur ||| ((if b then 1 else 0) <<< s.bool_bit_pos)] ++ packBools tl = _
        rw [List.append_assoc, packAux_cons, if_pos hcase]
        rfl
      · rw [if_neg hcase]
        obtain ⟨s', hrun, hbuf', hblocks', hfix'⟩ := ih2 B
          (cur ||| ((if b then 1 else 0) <<< s.bool_bit_pos)) (s.bool_bit_pos + 1)
          { s with field_count := s.field_count + 1
                   buf := B ++ [cur ||| ((if b then 1 else 0) <<< s.bool_bit_pos)]
                   bool_bit_pos := s.bool_bit_pos + 1 }
          rfl hoff rfl (by omega) (by omega)
        refine ⟨s', hrun, ?_, hblocks', hfix'⟩
        rw [hbuf']
        rw [packAux_cons, if_neg hcase]

theorem finalize_no_blocks {s : Serializer} (h1 : s.seq_data_blocks = [])
    (h2 : s.seq_fixups = []) : s.finalize = some s.buf := by
  unfold Serializer.finalize
  simp [h1, h2, Serializer.flushBools]

theorem serialize_eq (fields : List Ann) (vs : List Value) :
    serialize fields vs = (Serializer.init.serializeModel fields vs).bind
      Serializer.finalize := rfl

theorem packBools_cons (b : Bool) (bs : List Bool) :
    packBools (b :: bs) = packAux (if b then 1 else 0) 1 bs := rfl

/-- Byte count of a packed bool run: `ceil(n/8)`, and from a partial byte
with next bit `r`, `1 + (n + r - 1) / 8`. -/
theorem pack_length : ∀ (bs : List Bool),
    (packBools bs).length = (bs.length + 7) / 8 ∧
    ∀ (cur r : Nat), 1 ≤ r → r ≤ 7 →
      (packAux cur r bs).length = 1 + (bs.length + r - 1) / 8 := by
  intro bs
  induction bs with
  | nil =>
    constructor
    · simp [packBools]
    · intro cur r hr1 hr7
      simp only [packAux, List.length_cons, List.length_nil]
      omega
  | cons b tl ih =>
    obtain ⟨ih1, ih2⟩ := ih
    constructor
    · rw [packBools_cons, ih2 _ 1 (Nat.le_refl _) (by omega)]
      simp only [List.length_cons]
      omega
    · intro cur r hr1 hr7
      rw [packAux_cons]
      by_cases hc : 8 ≤ r + 1
      · rw [if_pos hc]
        simp only [List.length_cons, ih1]
        omega
      · rw [if_neg hc, ih2 _ (r + 1) (by omega) (by omega)]
        simp only [List.length_cons]
        omega

/-- Bit content of a packed bool run, LSB-first: bit `i % 8` of byte `i / 8`
is the `i`-th boolean.  The `packAux` part also states that the low bits of
the open byte are preserved. -/
theorem pack_bits : ∀ (bs : List Bool),
    (∀ i, i < bs.length →
      ((packBools bs).getD (i / 8) 0).testBit (i % 8) = bs.getD i false) ∧
    (∀ (cur r : Nat), 1 ≤ r → r ≤ 7 → cur < 2 ^ r →
      (∀ j, j < r → ((packAux cur r bs).getD 0 0).testBit j = cur.testBit j) ∧
      (∀ i, i < bs.length →
        ((packAux cur r bs).getD ((i + r) / 8) 0).testBit ((i + r) % 8)
          = bs.getD i false)) := by
  intro bs
  induction bs with
  | nil =>
    refine ⟨?_, ?_⟩
    · intro i hi
      simp at hi
    · intro cur r hr1 hr7 hcur
      refine ⟨?_, ?_⟩
      · intro j hj
        simp [packAux]
      · intro i hi
        simp at hi
  | cons b tl ih =>
    obtain ⟨ih1, ih2⟩ := ih
    refine ⟨?_, ?_⟩
    · intro i hi
      rw [packBools_cons]
      have hbit : (if b then (1 : Nat) else 0) < 2 ^ 1 := by cases b <;> simp
      obtain ⟨hlow, hrest⟩ := ih2 (if b then 1 else 0) 1 (Nat.le_refl _) (by omega) hbit
      cases i with
      | zero =>
        have h0 := hlow 0 (by omega)
        simp only [Nat.zero_div, Nat.zero_mod] at h0 ⊢
        rw [h0]
        cases b <;> simp
      | succ j =>
        have hj := hrest j (by simpa using hi)
        simpa using hj
    · intro cur r hr1 hr7 hcur
      have hbitlt : ((if b then (1 : Nat) else 0) <<< r) < 2 ^ (r + 1) := by
        rw [Nat.shiftLeft_eq]
        have hble : (if b then (1 : Nat) else 0) ≤ 1 := by cases b <;> simp
        have h1 : (if b then (1 : Nat) else 0) * 2 ^ r ≤ 2 ^ r :=
          le_trans (Nat.mul_le_mul_right _ hble) (by omega)
        have h2 : (2 : Nat) ^ r < 2 ^ (r + 1) := by
          rw [Nat.pow_succ]
          have := Nat.two_pow_pos r
          omega
        omega
      have hcur' : cur ||| ((if b then 1 else 0) <<< r) < 2 ^ (r + 1) :=
        Nat.or_lt_two_pow
          (lt_of_lt_of_le hcur (Nat.pow_le_pow_right (by omega) (by omega))) hbitlt
      by_cases hc : 8 ≤ r + 1
      · refine ⟨?_, ?_⟩
        · intro j hj
          rw [packAux_cons, if_pos hc]
          show (cur ||| ((if b then 1 else 0) <<< r)).testBit j = cur.testBit j
          rw [Nat.testBit_or, Nat.testBit_shiftLeft]
          have hnr : ¬ (r ≤ j) := by omega
          simp [hnr]
        · intro i hi
          rw [packAux_cons, if_pos hc]
          have hr : r = 7 := by omega
          subst hr
          cases i with
          | zero =>
            show ((_ :: packBools tl).getD ((0 + 7) / 8) 0).testBit ((0 + 7) % 8) = _
            have hdiv : (0 + 7) / 8 = 0 := by omega
            have hmod : (0 + 7) % 8 = 7 := by omega
            rw [hdiv, hmod]
            show (cur ||| ((if b then 1 else 0) <<< 7)).testBit 7 = _
            rw [Nat.testBit_or, Nat.testBit_shiftLeft]
            have hcf : cur.testBit 7 = false := Nat.testBit_lt_two_pow hcur
            rw [hcf]
            cases b <;> simp
          | succ j =>
            have hj := ih1 j (by simpa using hi)
            have hdiv : (j + 1 + 7) / 8 = j / 8 + 1 := by omega
            have hmod : (j + 1 + 7) % 8 = j % 8 := by omega
            rw [hdiv, hmod]
            show ((packBools tl).getD (j / 8) 0).testBit (j % 8) = _
            rw [hj]
            simp
      · obtain ⟨hlow', hrest'⟩ := ih2 (cur ||| ((if b then 1 else 0) <<< r)) (r + 1)
          (by omega) (by omega) hcur'
        refine ⟨?_, ?_⟩
        · intro j hj
          rw [packAux_cons, if_neg hc, hlow' j (by omega)]
          rw [Nat.testBit_or, Nat.testBit_shiftLeft]
          have hnr : ¬ (r ≤ j) := by omega
          simp [hnr]
        · intro i hi
          rw [packAux_cons, if_neg hc]
          cases i with
          | zero =>
            have h0 := hlow' r (by omega)
            have hdiv : (0 + r) / 8 = 0 := by omega
            have hmod : (0 + r) % 8 = r := by omega
            rw [hdiv, hmod, h0]
            rw [Nat.testBit_or, Nat.testBit_shiftLeft]
            have hcf : cur.testBit r = false := Nat.testBit_lt_two_pow hcur
            rw [hcf]
            cases b <;> simp
          | succ j =>
            have hj := hrest' j (by simpa using hi)
            have he : j + (r + 1) = j + 1 + r := by omega
            rw [he] at hj
            simpa using hj

/-! ## C8 -/

/-- C8: a flat record of `N ≥ 1` consecutive booleans serializes to exactly
`packBools` — `ceil(N/8)` bytes with the booleans packed LSB-first into
shared bytes (bit `i % 8` of byte `i / 8` is the `i`-th boolean). -/
theorem c8_bool_compaction (bs : List Bool) (hne : 1 ≤ bs.length) :
    serialize (List.replicate bs.length Ann.bool) (bs.map Value.bool) = some (packBools bs) ∧
    (packBools bs).length = (bs.length + 7) / 8 ∧
    (∀ i, i < bs.length →
      ((packBools bs).getD (i / 8) 0).testBit (i % 8) = bs.getD i false) := by
  refine ⟨?_, (pack_length bs).1, (pack_bits bs).1⟩
  rw [serialize_eq]
  unfold Serializer.serializeModel
  obtain ⟨s', hrun, hbuf', hbl, hfx⟩ := (boolRun bs).1 Serializer.init rfl
  rw [hrun, Option.some_bind,
      finalize_no_blocks (by rw [hbl]; rfl) (by rw [hfx]; rfl), hbuf']
  rfl

set_option maxRecDepth 4000 in
/-- Witness for C8 at the golden vector `[T,F,T,F,T,T,F,T]`, which packs to
the single byte `0xB5 = 181`. -/
theorem c8_bool_compaction_witness :
    serialize (List.replicate 8 Ann.bool)
        ([true, false, true, false, true, true, false, true].map Value.bool)
      = some [181] ∧
    (packBools [true, false, true, false, true, true, false, true]).length = (8 + 7) / 8 ∧
    ((packBools [true, false, true, false, true, true, false, true]).getD 0 0).testBit 2
      = true := by
  obtain ⟨h1, h2, h3⟩ := c8_bool_compaction
    [true, false, true, false, true, true, false, true] (by simp)
  refine ⟨?_, by simpa using h2, ?_⟩
  · exact h1
  · have := h3 2 (by simp)
    simpa using this

/-! ## Fixup and finalize lemmas (C2) -/

theorem patchU16_length (buf : List Nat) (pos v : Nat) :
    (patchU16 buf pos v).length = buf.length := by
  unfold patchU16
  simp [List.length_set]

theorem patchU16_getD_other {buf : List Nat} {pos v j : Nat}
    (h1 : j ≠ pos) (h2 : j ≠ pos + 1) :
    (patchU16 buf pos v).getD j 0 = buf.getD j 0 := by
  unfold patchU16
  simp [List.getD_eq_getElem?_getD, List.getElem?_set_ne (Ne.symm h2),
        List.getElem?_set_ne (Ne.symm h1)]

theorem patchU16_read {buf : List Nat} {pos v : Nat}
    (hpos : pos + 2 ≤ buf.length) (hv : v < 65536) :
    leVal (patchU16 buf pos v) pos 2 = v := by
  have hget0 : (patchU16 buf pos v).getD pos 0 = v % 256 := by
    unfold patchU16
    simp [List.getD_eq_getElem?_getD, List.getElem?_set_ne (show pos + 1 ≠ pos by omega),
          List.getElem?_set_self (show pos < buf.length by omega)]
  have hget1 : (patchU16 buf pos v).getD (pos + 1) 0 = v / 256 % 256 := by
    unfold patchU16
    simp [List.getD_eq_getElem?_getD,
          List.getElem?_set_self (show pos + 1 < (buf.set pos (v % 256)).length by
            simp [List.length_set]; omega)]
  simp only [leVal, hget0, hget1]
  omega

/-- `_write_padding` appends some run of zero bytes. -/
theorem writePadding_spec (s : Serializer) (size : Nat) :
    ∃ k, s.writePadding size =
      { s with buf := s.buf ++ List.replicate k 0, pos := s.pos + k } := by
  unfold Serializer.writePadding
  split
  · exact ⟨0, by simp⟩
  · dsimp only
    split
    · split
      · exact ⟨4 - s.pos % 4, rfl⟩
      · exact ⟨0, by simp⟩
    · split
      · exact ⟨size - s.pos % size, rfl⟩
      · exact ⟨0, by simp⟩

/-- Invariant preservation: anything that only appends to the buffer and
leaves the fixups and blocks alone. -/
theorem SerInv_append {s : Serializer} (hinv : SerInv s) {s' : Serializer}
    (hbuf : ∃ ext, s'.buf = s.buf ++ ext)
    (hfix : s'.seq_fixups = s.seq_fixups)
    (hblocks : s'.seq_data_blocks = s.seq_data_blocks) : SerInv s' := by
  obtain ⟨hpw, hbound, hrange⟩ := hinv
  obtain ⟨ext, hext⟩ := hbuf
  refine ⟨by rw [hfix]; exact hpw, ?_, by rw [hfix, hblocks]; exact hrange⟩
  intro p hp
  rw [hfix] at hp
  have := hbound p hp
  rw [hext]
  simp only [List.length_append]
  omega

theorem SerInv_writePadding {s : Serializer} (hinv : SerInv s) (size : Nat) :
    SerInv (s.writePadding size) := by
  obtain ⟨k, hk⟩ := writePadding_spec s size
  exact SerInv_append hinv ⟨List.replicate k 0, by rw [hk]⟩ (by rw [hk]) (by rw [hk])

theorem SerInv_flushBools {s : Serializer} (hinv : SerInv s) : SerInv s.flushBools :=
  SerInv_append hinv ⟨[], by simp [Serializer.flushBools]⟩ rfl rfl

theorem SerInv_writeBool {s : Serializer} (hinv : SerInv s) (b : Bool) :
    SerInv (s.writeBool b) := by
  unfold Serializer.writeBool
  cases hb : s.bool_byte_offset with
  | some off =>
    obtain ⟨hpw, hbound, hrange⟩ := hinv
    dsimp only
    have hlen : (if b then s.buf.set off (s.buf.getD off 0 ||| 1 <<< s.bool_bit_pos)
        else s.buf).length = s.buf.length := by
      split <;> simp [List.length_set]
    split
    · exact ⟨hpw, fun p hp => by rw [hlen]; exact hbound p hp, hrange⟩
    · exact ⟨hpw, fun p hp => by rw [hlen]; exact hbound p hp, hrange⟩
  | none =>
    dsimp only
    obtain ⟨k, hk⟩ := writePadding_spec s 1
    rw [hk]
    refine SerInv_append hinv
      ⟨List.replicate k 0 ++ [if b = true then 1 else 0], ?_⟩ rfl rfl
    dsimp only
    rw [List.append_assoc]

theorem SerInv_writePrimitive {s : Serializer} (hinv : SerInv s) {size value : Nat}
    {s' : Serializer} (h : s.writePrimitive size value = some s') : SerInv s' := by
  unfold Serializer.writePrimitive at h
  split at h
  · injection h with h
    subst h
    exact SerInv_append (SerInv_writePadding (SerInv_flushBools hinv) size)
      ⟨leBytes size value, rfl⟩ rfl rfl
  · exact absurd h (by simp)

/-- String and sequence writers append a fresh descriptor window at the end
of the head and register the next block index: the invariant extends. -/
theorem SerInv_register {t : Serializer} (hinv : SerInv t) {s' : Serializer} {e : List Nat}
    (hext : 2 ≤ e.length)
    (hbuf : s'.buf.length = (t.buf ++ e).length)
    (hfix : s'.seq_fixups = t.seq_fixups ++ [(t.buf.length, t.seq_data_blocks.length)])
    {block : List Nat}
    (hblocks : s'.seq_data_blocks = t.seq_data_blocks ++ [block]) : SerInv s' := by
  obtain ⟨hpw, hbound, hrange⟩ := hinv
  refine ⟨?_, ?_, ?_⟩
  · rw [hfix, List.pairwise_append]
    refine ⟨hpw, by simp, ?_⟩
    intro p hp q hq
    rw [List.mem_singleton] at hq
    subst hq
    exact hbound p hp
  · intro p hp
    rw [hfix] at hp
    rw [List.mem_append] at hp
    rw [hbuf]
    simp only [List.length_append]
    rcases hp with hp | hp
    · have := hbound p hp
      omega
    · rw [List.mem_singleton] at hp
      subst hp
      omega
  · rw [hfix, hblocks]
    simp only [List.map_append, List.map_cons, List.map_nil, List.length_append,
               List.length_cons, List.length_nil, hrange]
    rw [List.range_succ]

theorem SerInv_writeString {s : Serializer} (hinv : SerInv s) {bytes : List Nat}
    {s' : Serializer} (h : s.writeString bytes = some s') : SerInv s' := by
  unfold Serializer.writeString at h
  split at h
  · injection h with h
    subst h
    exact SerInv_register (SerInv_writePadding (SerInv_flushBools hinv) 2)
      (e := [0, 0]) (by simp) (by simp) rfl rfl
  · exact absurd h (by simp)

theorem SerInv_writeSequence {s : Serializer} (hinv : SerInv s) {elem : Ann}
    {values : List Value} {s' : Serializer} (h : s.writeSequence elem values = some s') :
    SerInv s' := by
  unfold Serializer.writeSequence at h
  split at h
  case isFalse => exact absurd h (by simp)
  case isTrue =>
    rw [Option.bind_eq_some] at h
    obtain ⟨elemBytes, _, h⟩ := h
    rw [Option.bind_eq_some] at h
    obtain ⟨first, _, h⟩ := h
    dsimp only at h
    split at h
    · injection h with h
      subst h
      exact SerInv_register (SerInv_writePadding (SerInv_flushBools hinv) 2)
        (e := [0, 0, 0, 0]) (by simp)
        (by simp [patchU16_length]) rfl rfl
    · exact absurd h (by simp)

theorem SerInv_fc {s : Serializer} (hinv : SerInv s) (n : Nat) :
    SerInv { s with field_count := n } :=
  SerInv_append hinv ⟨[], by simp⟩ rfl rfl

theorem SerInv_fieldList_aux :
    ∀ (fs : List Ann) (vs : List Value) (s s' : Serializer),
      (∀ a ∈ fs, ∀ (v : Value) (t t' : Serializer), SerInv t →
        Serializer.serializeField t a v = some t' → SerInv t') →
      SerInv s → Serializer.serializeFieldList s fs vs = some s' → SerInv s' := by
  intro fs
  induction fs with
  | nil =>
    intro vs s s' _ hinv h
    cases vs with
    | nil =>
      injection h with h
      subst h
      exact hinv
    | cons v vs => exact absurd h (by simp [Serializer.serializeFieldList])
  | cons f fs ih =>
    intro vs s s' hfields hinv h
    cases vs with
    | nil => exact absurd h (by simp [Serializer.serializeFieldList])
    | cons v vs =>
      unfold Serializer.serializeFieldList at h
      rw [Option.bind_eq_bind', Option.bind_eq_some] at h
      obtain ⟨t, ht, hrest⟩ := h
      have h1 := hfields f (by simp) v _ _ (SerInv_fc hinv _) ht
      exact ih vs t s' (fun a ha => hfields a (by simp [ha])) h1 hrest

theorem SerInv_serializeField_aux :
    ∀ (n : Nat) (a : Ann), sizeOf a ≤ n → ∀ (v : Value) (s s' : Serializer), SerInv s →
      Serializer.serializeField s a v = some s' → SerInv s' := by
  intro n
  induction n using Nat.strong_induction_on with
  | _ n ih =>
    intro a hsize v s s' hinv h
    cases a with
    | wire size =>
      cases v <;> simp [Serializer.serializeField] at h
      exact SerInv_writePrimitive hinv h
    | bool =>
      cases v <;> simp [Serializer.serializeField] at h
      rw [← h]
      exact SerInv_writeBool hinv _
    | str =>
      cases v <;> simp [Serializer.serializeField] at h
      exact SerInv_writeString hinv h
    | list elem =>
      cases v <;> simp [Serializer.serializeField] at h
      exact SerInv_writeSequence hinv h
    | model fields =>
      cases v <;> simp [Serializer.serializeField] at h
      rename_i vs
      have hmem : ∀ a ∈ fields, ∀ (v : Value) (t t' : Serializer), SerInv t →
          Serializer.serializeField t a v = some t' → SerInv t' := by
        intro a ha
        have hlt : sizeOf a < n := by
          have h1 : sizeOf a < sizeOf fields := List.sizeOf_lt_of_mem ha
          have h2 : sizeOf (Ann.model fields) = 1 + sizeOf fields := by
            simp [Ann.model.sizeOf_spec]
          omega
        exact ih (sizeOf a) hlt a (Nat.le_refl _)
      exact SerInv_fieldList_aux fields vs s s' hmem hinv h

theorem SerInv_serializeModel {fields : List Ann} {vs : List Value} {s s' : Serializer}
    (hinv : SerInv s) (h : Serializer.serializeModel s fields vs = some s') : SerInv s' :=
  SerInv_fieldList_aux fields vs s s'
    (fun a _ v t t' ht hser =>
      SerInv_serializeField_aux (sizeOf a) a (Nat.le_refl _) v t t' ht hser) hinv h

theorem pad4_length (l : List Nat) : (pad4 l).length = align4 l.length := by
  unfold pad4
  have := le_align4 l.length
  simp only [List.length_append, List.length_replicate]
  omega

theorem leVal_two (data : List Nat) (pos : Nat) :
    leVal data pos 2 = data.getD pos 0 + 256 * data.getD (pos + 1) 0 := by
  simp [leVal]

/-- The fixup-patching fold of `finalize`: under the fixup invariant every
descriptor window receives a value at least the starting offset, and bytes
outside all windows are untouched. -/
theorem foldPatch :
    ∀ (fixups : List (Nat × Nat)) (blocks : List (List Nat)) (buf : List Nat) (off : Nat)
      (res : List Nat × Nat),
      List.Pairwise (fun p q : Nat × Nat => p.1 + 2 ≤ q.1) fixups →
      (∀ p ∈ fixups, p.1 + 2 ≤ buf.length) →
      fixups.foldlM
        (fun (acc : List Nat × Nat) fix => do
          let block := blocks.getD fix.2 []
          if fix.1 + 2 ≤ acc.1.length ∧ acc.2 < 65536 then
            pure (patchU16 acc.1 fix.1 acc.2, acc.2 + block.length)
          else none)
        (buf, off) = some res →
      res.1.length = buf.length ∧
      (∀ p ∈ fixups, off ≤ leVal res.1 p.1 2 ∧ leVal res.1 p.1 2 < 65536) ∧
      (∀ j, (∀ p ∈ fixups, ¬ (p.1 ≤ j ∧ j < p.1 + 2)) → res.1.getD j 0 = buf.getD j 0) := by
  intro fixups
  induction fixups with
  | nil =>
    intro blocks buf off res _ _ h
    simp only [List.foldlM_nil] at h
    injection h with h
    subst h
    exact ⟨rfl, by simp, fun j _ => rfl⟩
  | cons hd rest ih =>
    intro blocks buf off res hpw hbound h
    simp only [List.foldlM_cons] at h
    split at h
    case isTrue hcond =>
      obtain ⟨hle, hoff⟩ := hcond
      simp only [pure_bind] at h
      have hpw' := hpw.tail
      have hhd : ∀ q ∈ rest, hd.1 + 2 ≤ q.1 := fun q hq =>
        List.rel_of_pairwise_cons hpw hq
      have hbound' : ∀ p ∈ rest, p.1 + 2 ≤ (patchU16 buf hd.1 off).length := by
        intro p hp
        rw [patchU16_length]
        exact hbound p (by simp [hp])
      obtain ⟨hlen, hvals, hpres⟩ := ih blocks (patchU16 buf hd.1 off)
        (off + (blocks.getD hd.2 []).length) res hpw' hbound' h
      refine ⟨hlen.trans (patchU16_length _ _ _), ?_, ?_⟩
      · intro p hp
        rcases List.mem_cons.1 hp with hp | hp
        · subst hp
          have hwin0 : ∀ q ∈ rest, ¬ (q.1 ≤ p.1 ∧ p.1 < q.1 + 2) := by
            intro q hq
            have := hhd q hq
            omega
          have hwin1 : ∀ q ∈ rest, ¬ (q.1 ≤ p.1 + 1 ∧ p.1 + 1 < q.1 + 2) := by
            intro q hq
            have := hhd q hq
            omega
          have hread : leVal res.1 p.1 2 = leVal (patchU16 buf p.1 off) p.1 2 := by
            rw [leVal_two, leVal_two, hpres p.1 hwin0, hpres (p.1 + 1) hwin1]
          rw [hread, patchU16_read (by simpa using hbound p (by simp)) hoff]
          omega
        · have := hvals p hp
          omega
      · intro j hj
        have h1 : res.1.getD j 0 = (patchU16 buf hd.1 off).getD j 0 :=
          hpres j (fun p hp => hj p (by simp [hp]))
        have hwin := hj hd (by simp)
        rw [h1, patchU16_getD_other (by omega) (by omega)]
    case isFalse =>
      rw [Option.bind_eq_bind'] at h
      simp at h

theorem align4_ge_four {n : Nat} (h : 2 ≤ n) : 4 ≤ align4 n := by
  unfold align4
  omega

/-- Under the serializer invariant, every sequence descriptor in a finalized
buffer holds an offset at least `base_offset + 4`, hence nonzero. -/
theorem finalize_fixups {s : Serializer} {out : List Nat} (hinv : SerInv s)
    (hfin : s.finalize = some out) :
    ∀ p ∈ s.seq_fixups,
      p.1 + 2 ≤ out.length ∧
      s.base_offset + 4 ≤ leVal out p.1 2 ∧ leVal out p.1 2 < 65536 := by
  intro p hp
  obtain ⟨hpw, hbound, hrange⟩ := hinv
  have hblocks : s.seq_data_blocks ≠ [] := by
    intro hnil
    rw [hnil] at hrange
    simp at hrange
    rw [hrange] at hp
    exact absurd hp (List.not_mem_nil p)
  unfold Serializer.finalize at hfin
  dsimp only [Serializer.flushBools] at hfin
  rw [if_pos (by exact hblocks)] at hfin
  dsimp only at hfin
  rw [Option.bind_eq_bind', Option.bind_eq_some] at hfin
  obtain ⟨res, hfold, hres⟩ := hfin
  obtain ⟨rbuf, roff⟩ := res
  dsimp only at hres
  injection hres with hres
  have hbuflen : 2 ≤ s.buf.length := by
    have := hbound p hp
    omega
  have hpadlen : (pad4 s.buf).length = align4 s.buf.length := pad4_length s.buf
  have hbound' : ∀ q ∈ s.seq_fixups, q.1 + 2 ≤ (pad4 s.buf).length := by
    intro q hq
    rw [hpadlen]
    have := hbound q hq
    have := le_align4 s.buf.length
    omega
  obtain ⟨hlen, hvals, _⟩ := foldPatch s.seq_fixups s.seq_data_blocks (pad4 s.buf)
    (s.base_offset + (pad4 s.buf).length) (rbuf, roff) hpw hbound' hfold
  have hple : p.1 + 2 ≤ rbuf.length := by
    rw [hlen]
    exact hbound' p hp
  have hread : leVal out p.1 2 = leVal rbuf p.1 2 := by
    rw [← hres]
    exact leVal_append_left rbuf _ hple
  have hv := hvals p hp
  dsimp only at hv hlen
  refine ⟨?_, ?_, ?_⟩
  · rw [← hres]
    simp only [List.length_append]
    omega
  · rw [hread]
    have h4 : 4 ≤ (pad4 s.buf).length := by
      rw [hpadlen]
      exact align4_ge_four hbuflen
    omega
  · rw [hread]
    exact hv.2

theorem pad4_four : pad4 (leBytes 4 (List.length ([] : List Value)) ++ ([] : List Nat)) =
    [0, 0, 0, 0] := by decide

theorem SerInv_init : SerInv Serializer.init :=
  ⟨List.Pairwise.nil, by simp [Serializer.init], by simp [Serializer.init]⟩

theorem SerInv_init8 : SerInv { Serializer.init with base_offset := 8 } :=
  ⟨List.Pairwise.nil, by simp [Serializer.init], by simp [Serializer.init]⟩

/-! No serializer operation touches `base_offset`. -/

theorem writePadding_base (s : Serializer) (size : Nat) :
    (s.writePadding size).base_offset = s.base_offset := by
  unfold Serializer.writePadding
  split
  · rfl
  · dsimp only
    split <;> (split <;> rfl)

theorem writeBool_base (s : Serializer) (v : Bool) :
    (s.writeBool v).base_offset = s.base_offset := by
  unfold Serializer.writeBool
  cases hb : s.bool_byte_offset with
  | some off =>
    dsimp only
    split
    · rfl
    · rfl
  | none =>
    dsimp only
    rw [writePadding_base]

theorem writePrimitive_base {s : Serializer} {size value : Nat} {s' : Serializer}
    (h : s.writePrimitive size value = some s') : s'.base_offset = s.base_offset := by
  unfold Serializer.writePrimitive at h
  split at h
  · injection h with h
    subst h
    dsimp only
    rw [writePadding_base]
    rfl
  · exact absurd h (by simp)

theorem writeString_base {s : Serializer} {bytes : List Nat} {s' : Serializer}
    (h : s.writeString bytes = some s') : s'.base_offset = s.base_offset := by
  unfold Serializer.writeString at h
  split at h
  · injection h with h
    subst h
    dsimp only
    rw [writePadding_base]
    rfl
  · exact absurd h (by simp)

theorem writeSequence_base {s : Serializer} {elem : Ann} {values : List Value}
    {s' : Serializer} (h : s.writeSequence elem values = some s') :
    s'.base_offset = s.base_offset := by
  unfold Serializer.writeSequence at h
  split at h
  case isFalse => exact absurd h (by simp)
  case isTrue =>
    rw [Option.bind_eq_some] at h
    obtain ⟨elemBytes, _, h⟩ := h
    rw [Option.bind_eq_some] at h
    obtain ⟨first, _, h⟩ := h
    dsimp only at h
    split at h
    · injection h with h
      subst h
      dsimp only
      rw [writePadding_base]
      rfl
    · exact absurd h (by simp)

theorem serializeFieldList_base_aux :
    ∀ (fs : List Ann) (vs : List Value) (s s' : Serializer),
      (∀ a ∈ fs, ∀ (v : Value) (t t' : Serializer),
        Serializer.serializeField t a v = some t' → t'.base_offset = t.base_offset) →
      Serializer.serializeFieldList s fs vs = some s' →
      s'.base_offset = s.base_offset := by
  intro fs
  induction fs with
  | nil =>
    intro vs s s' _ h
    cases vs with
    | nil =>
      injection h with h
      subst h
      rfl
    | cons v vs => exact absurd h (by simp [Serializer.serializeFieldList])
  | cons f fs ih =>
    intro vs s s' hfields h
    cases vs with
    | nil => exact absurd h (by simp [Serializer.serializeFieldList])
    | cons v vs =>
      unfold Serializer.serializeFieldList at h
      rw [Option.bind_eq_bind', Option.bind_eq_some] at h
      obtain ⟨t, ht, hrest⟩ := h
      have h1 := hfields f (by simp) v _ _ ht
      have h2 := ih vs t s' (fun a ha => hfields a (by simp [ha])) hrest
      simp only at h1
      rw [h2, h1]

theorem serializeField_base_aux :
    ∀ (n : Nat) (a : Ann), sizeOf a ≤ n → ∀ (v : Value) (s s' : Serializer),
      Serializer.serializeField s a v = some s' → s'.base_offset = s.base_offset := by
  intro n
  induction n using Nat.strong_induction_on with
  | _ n ih =>
    intro a hsize v s s' h
    cases a with
    | wire size =>
      cases v <;> simp [Serializer.serializeField] at h
      exact writePrimitive_base h
    | bool =>
      cases v <;> simp [Serializer.serializeField] at h
      rw [← h, writeBool_base]
    | str =>
      cases v <;> simp [Serializer.serializeField] at h
      exact writeString_base h
    | list elem =>
      cases v <;> simp [Serializer.serializeField] at h
      exact writeSequence_base h
    | model fields =>
      cases v <;> simp [Serializer.serializeField] at h
      rename_i vs
      have hmem : ∀ a ∈ fields, ∀ (v : Value) (t t' : Serializer),
          Serializer.serializeField t a v = some t' → t'.base_offset = t.base_offset := by
        intro a ha
        have hlt : sizeOf a < n := by
          have h1 : sizeOf a < sizeOf fields := List.sizeOf_lt_of_mem ha
          have h2 : sizeOf (Ann.model fields) = 1 + sizeOf fields := by
            simp [Ann.model.sizeOf_spec]
          omega
        exact ih (sizeOf a) hlt a (Nat.le_refl _)
      exact serializeFieldList_base_aux fields vs s s' hmem h

/-- `serialize_model` leaves `base_offset` unchanged. -/
theorem serializeModel_base {fields : List Ann} {vs : List Value} {s s' : Serializer}
    (h : Serializer.serializeModel s fields vs = some s') :
    s'.base_offset = s.base_offset :=
  serializeFieldList_base_aux fields vs s s'
    (fun a _ v t t' ht => serializeField_base_aux (sizeOf a) a (Nat.le_refl _) v t t' ht) h

/-- **C2, counterexample.**  An empty sequence field (and an empty string
field) serializes with descriptor offset `4`, not `0`, and the output
contains a four-byte data block for it: `serialize` on the one-field schema
`list[u16]` with value `[]` yields `[4,0,0,0, 0,0,0,0]`, whose u16 at the
descriptor position `0` is `4 ≠ 0`, refuting "`offset = 0` iff the field is
logically empty" and "skipping the block entirely". -/
theorem c2_empty_offset_counterexample :
    serialize [Ann.list (Ann.wire 2)] [Value.list []] = some [4, 0, 0, 0, 0, 0, 0, 0] ∧
    leVal [4, 0, 0, 0, 0, 0, 0, 0] 0 2 = 4 ∧
    (4 : Nat) ≠ 0 ∧
    serialize [Ann.str] [Value.str []] = some [4, 0, 0, 0, 0, 0, 0, 0] :=
  ⟨rfl, by decide, by decide, rfl⟩

theorem leVal_shift (pre rest : List Nat) (i size : Nat) :
    leVal (pre ++ rest) (pre.length + i) size = leVal rest i size :=
  leVal_congr fun j _ => getD_skip pre rest _ (i + j) (by omega)

/-- **C2, amended.**  In every record encoded by `serialize` or
`serialize_message`, every string or sequence descriptor's u16 offset is
nonzero, also for logically empty fields: at least `4` in a `serialize`
output, and at least `12` (at descriptor position `8 + p` of the message
bytes) in a `serialize_message` output.  An empty sequence still registers a
data block: the encoder appends the four-byte count-`0` block `[0,0,0,0]`,
records the fixup for its descriptor, and stores `element_byte_size = 0` in
the descriptor's second u16. -/
theorem c2_descriptor_offset_amended :
    (∀ (fields : List Ann) (vs : List Value) (s : Serializer) (out : List Nat),
      Serializer.serializeModel Serializer.init fields vs = some s →
      s.finalize = some out →
      ∀ p ∈ s.seq_fixups, 4 ≤ leVal out p.1 2 ∧ leVal out p.1 2 < 65536) ∧
    (∀ (fields : List Ann) (vs : List Value) (mk gk : Int) (s : Serializer) (out : List Nat),
      Serializer.serializeModel { Serializer.init with base_offset := 8 } fields vs = some s →
      serializeMessage fields vs mk gk = some out →
      ∀ p ∈ s.seq_fixups,
        12 ≤ leVal out (8 + p.1) 2 ∧ leVal out (8 + p.1) 2 < 65536) ∧
    (∀ (t t' : Serializer) (elem : Ann), t.writeSequence elem [] = some t' →
      t'.seq_data_blocks = t.seq_data_blocks ++ [[0, 0, 0, 0]] ∧
      t'.seq_fixups = t.seq_fixups ++
        [((t.flushBools.writePadding 2).buf.length, t.seq_data_blocks.length)] ∧
      leVal t'.buf ((t.flushBools.writePadding 2).buf.length + 2) 2 = 0) := by
  refine ⟨?_, ?_, ?_⟩
  · intro fields vs s out hs hfin p hp
    have hinv := SerInv_serializeModel SerInv_init hs
    have hfix := finalize_fixups hinv hfin p hp
    exact ⟨by omega, hfix.2.2⟩
  · intro fields vs mk gk s out hs hsm p hp
    obtain ⟨s', body, hdr, hs', hfin, hhdr, hout⟩ := serializeMessage_inv hsm
    rw [hs] at hs'
    injection hs' with hs'
    subst hs'
    have hbase : s.base_offset = 8 := serializeModel_base hs
    have hinv := SerInv_serializeModel SerInv_init8 hs
    have hfix := finalize_fixups hinv hfin p hp
    rw [hbase] at hfix
    have hhlen : hdr.length = 8 := MessageHeader.encode_length hhdr
    have hread : leVal out (8 + p.1) 2 = leVal body p.1 2 := by
      rw [hout, List.append_assoc]
      have h1 := leVal_shift hdr
        (body ++ List.replicate (align4 (8 + body.length) - 8 - body.length) 0) p.1 2
      rw [hhlen] at h1
      rw [h1]
      exact leVal_append_left _ _ (by omega)
    rw [hread]
    exact ⟨by omega, hfix.2.2⟩
  · intro t t' elem h
    unfold Serializer.writeSequence at h
    rw [if_pos (by norm_num)] at h
    obtain ⟨k, hk⟩ := writePadding_spec t.flushBools 2
    simp only [seqBlockBytes, seqFirstSize, List.foldlM_nil, Option.pure_def,
      Option.some_bind, Option.bind_eq_bind'] at h
    rw [hk] at h
    rw [if_pos (by norm_num : (0 : Nat) < 65536)] at h
    dsimp only [Serializer.flushBools] at h
    injection h with h
    subst h
    rw [hk]
    dsimp only [Serializer.flushBools]
    refine ⟨by rw [pad4_four], ?_, ?_⟩
    · rfl
    · rw [patchU16_read (by simp; omega) (by norm_num)]

/-- **C2, witness.**  The amended theorem applied to the one-field schema
`list[u16]` with the empty sequence, on both paths: the descriptor at offset
`0` of the `serialize` output `[4,0,0,0, 0,0,0,0]` holds `4`, and the
descriptor at byte `8` of the `serialize_message` output holds `12` — in
both cases nonzero and within u16 range. -/
theorem c2_descriptor_offset_amended_witness :
    (4 ≤ leVal [4, 0, 0, 0, 0, 0, 0, 0] 0 2 ∧
      leVal [4, 0, 0, 0, 0, 0, 0, 0] 0 2 < 65536) ∧
    (12 ≤ leVal [0, 0, 0, 0, 4, 0, 3, 0, 12, 0, 0, 0, 0, 0, 0, 0] (8 + 0) 2 ∧
      leVal [0, 0, 0, 0, 4, 0, 3, 0, 12, 0, 0, 0, 0, 0, 0, 0] (8 + 0) 2 < 65536) :=
  ⟨(c2_descriptor_offset_amended.1 [Ann.list (Ann.wire 2)] [Value.list []]
    { buf := [0, 0, 0, 0], pos := 4, seq_data_blocks := [[0, 0, 0, 0]]
      seq_fixups := [(0, 0)], bool_bit_pos := 0, bool_byte_offset := none
      in_seq_data := false, field_count := 1, base_offset := 0 }
    [4, 0, 0, 0, 0, 0, 0, 0] rfl rfl (0, 0) (by simp)),
   (c2_descriptor_offset_amended.2.1 [Ann.list (Ann.wire 2)] [Value.list []] 0 0
    { buf := [0, 0, 0, 0], pos := 4, seq_data_blocks := [[0, 0, 0, 0]]
      seq_fixups := [(0, 0)], bool_bit_pos := 0, bool_byte_offset := none
      in_seq_data := false, field_count := 1, base_offset := 8 }
    [0, 0, 0, 0, 4, 0, 3, 0, 12, 0, 0, 0, 0, 0, 0, 0] rfl rfl (0, 0) (by simp))⟩

/-! ## Packet round-trip (C4) -/

/-- `MessageHeader.decode` at the end of a known prefix reads the suffix. -/
theorem MessageHeader.decode_shift (pre rest : List Nat) :
    MessageHeader.decode (pre ++ rest) pre.length = MessageHeader.decode rest 0 := by
  unfold MessageHeader.decode
  by_cases h8 : rest.length < 8
  · rw [if_pos (show (pre ++ rest).length - pre.length < 8 by simp; omega),
      if_pos (show rest.length - 0 < 8 by omega)]
  · rw [if_neg (show ¬ ((pre ++ rest).length - pre.length < 8) by simp; omega),
      if_neg (show ¬ (rest.length - 0 < 8) by omega)]
    have h0 : leVal (pre ++ rest) pre.length 4 = leVal rest 0 4 := leVal_append pre rest 4
    have h4 : leVal (pre ++ rest) (pre.length + 4) 2 = leVal rest 4 2 := leVal_shift pre rest 4 2
    have h6 : (pre ++ rest).getD (pre.length + 6) 0 = rest.getD 6 0 := getD_skip pre rest _ 6 rfl
    have h7 : (pre ++ rest).getD (pre.length + 7) 0 = rest.getD 7 0 := getD_skip pre rest _ 7 rfl
    rw [h0, h4, h6, h7]

/-- `MessageHeader.decode` at `0` only reads the first 8 bytes. -/
theorem MessageHeader.decode_append_left {m : List Nat} (h8 : 8 ≤ m.length)
    (rest : List Nat) :
    MessageHeader.decode (m ++ rest) 0 = MessageHeader.decode m 0 := by
  unfold MessageHeader.decode
  rw [if_neg (show ¬ ((m ++ rest).length - 0 < 8) by simp; omega),
    if_neg (show ¬ (m.length - 0 < 8) by omega)]
  have h0 : leVal (m ++ rest) 0 4 = leVal m 0 4 := leVal_append_left _ _ (by omega)
  have h4 : leVal (m ++ rest) (0 + 4) 2 = leVal m (0 + 4) 2 := leVal_append_left _ _ (by omega)
  have h6 : (m ++ rest).getD (0 + 6) 0 = m.getD (0 + 6) 0 := getD_append_left_of_lt _ (by omega)
  have h7 : (m ++ rest).getD (0 + 7) 0 = m.getD (0 + 7) 0 := getD_append_left_of_lt _ (by omega)
  rw [h0, h4, h6, h7]

theorem slice_middle (pre m rest : List Nat) :
    slice (pre ++ (m ++ rest)) pre.length (pre.length + m.length) = m := by
  unfold slice
  rw [List.drop_left, Nat.add_sub_cancel_left]
  exact List.take_left _ _

theorem slice_all (pre rest : List Nat) :
    slice (pre ++ rest) pre.length (pre.length + rest.length) = rest := by
  unfold slice
  rw [List.drop_left, Nat.add_sub_cancel_left, List.take_length]

/-- Every `serialize_message`/`empty_message` output is well framed. -/
theorem producedMessage_wf {m : List Nat} (h : producedMessage m) : wfMessage m := by
  rcases h with ⟨fields, vs, mk, gk, hsm⟩ | ⟨mk, gk, hem⟩
  · obtain ⟨hmod, hd, hdec, hlen⟩ := serializeMessage_length hsm
    obtain ⟨s, body, hdr, _, _, hhdr, hout⟩ := serializeMessage_inv hsm
    have hhlen : hdr.length = 8 := MessageHeader.encode_length hhdr
    have hml : m.length = align4 (8 + body.length) := by
      subst hout
      simp only [List.length_append, List.length_replicate, hhlen]
      have := le_align4 (8 + body.length)
      omega
    have h8 : 8 ≤ m.length := by
      have := le_align4 (8 + body.length)
      omega
    exact ⟨h8, hmod, hd, hdec, hlen⟩
  · unfold emptyMessage at hem
    have hb := MessageHeader.encode_length hem
    have hdec := MessageHeader.decode_encode hem []
    rw [List.append_nil] at hdec
    exact ⟨by omega, by omega, _, hdec, by simp [hb]⟩

theorem flatten_length_mod4 : ∀ ms : List (List Nat), (∀ m ∈ ms, m.length % 4 = 0) →
    ms.flatten.length % 4 = 0 := by
  intro ms
  induction ms with
  | nil => intro; simp
  | cons m ms ih =>
    intro h
    simp only [List.flatten_cons, List.length_append]
    have h1 := h m (by simp)
    have h2 := ih (fun x hx => h x (by simp [hx]))
    omega

theorem align4_of_mod {n : Nat} (h : n % 4 = 0) : align4 n = n := by unfold align4; omega

/-- The packet partition walk over a concatenation of well-framed messages
returns exactly those messages. -/
theorem packetWalk_concat :
    ∀ (ms : List (List Nat)) (pre : List Nat),
      (∀ m ∈ ms, 8 ≤ m.length ∧
        ∃ h, MessageHeader.decode m 0 = some h ∧ h.length * 4 = m.length) →
      packetWalk (pre ++ ms.flatten) (pre.length + ms.flatten.length) pre.length =
        Except.ok ms := by
  intro ms
  induction ms with
  | nil =>
    intro pre _
    unfold packetWalk
    rw [dif_neg (show ¬ (pre.length + 8 ≤ pre.length +
      (([] : List (List Nat)).flatten).length) by simp)]
  | cons m ms ih =>
    intro pre hwf
    obtain ⟨h8, hd, hdec, hlen4⟩ := hwf m (by simp)
    simp only [List.flatten_cons, List.length_append] at *
    unfold packetWalk
    rw [dif_pos (show pre.length + 8 ≤ pre.length + (m.length + ms.flatten.length) by omega)]
    have hdecat : MessageHeader.decode (pre ++ (m ++ ms.flatten)) pre.length = some hd := by
      rw [MessageHeader.decode_shift, MessageHeader.decode_append_left h8, hdec]
    rw [hdecat]
    dsimp only
    rw [hlen4]
    rw [dif_neg (show ¬ (m.length < 8) by omega)]
    rw [dif_neg (show ¬ (pre.length + (m.length + ms.flatten.length) < pre.length + m.length)
      by omega)]
    have hrest := ih (pre ++ m) (fun x hx => hwf x (by simp [hx]))
    rw [List.append_assoc] at hrest
    simp only [List.length_append] at hrest
    rw [Nat.add_assoc] at hrest
    rw [hrest]
    rw [slice_middle]

/-- **C4.**  Packing any list of `serialize_message`/`empty_message` outputs
with `serialize_packet` and parsing the result with `deserialize_packet`
succeeds and returns exactly that list of message byte strings, in order. -/
theorem c4_packet_roundtrip (ms : List (List Nat)) (out : List Nat)
    (hms : ∀ m ∈ ms, producedMessage m)
    (hsp : serializePacket ms = some out) :
    ∃ ph, deserializePacket out = Except.ok (ph, ms) := by
  have hwf : ∀ m ∈ ms, wfMessage m := fun m hm => producedMessage_wf (hms m hm)
  have hmod : ms.flatten.length % 4 = 0 :=
    flatten_length_mod4 ms (fun m hm => (hwf m hm).2.1)
  have hrep : align4 (8 + ms.flatten.length) - 8 - ms.flatten.length = 0 := by
    have := align4_of_mod (n := 8 + ms.flatten.length) (by omega)
    omega
  obtain ⟨hlw, hout⟩ := serializePacket_inv hsp
  rw [hrep] at hout
  simp only [List.replicate_zero, List.append_nil] at hout
  have hlw4 : align4 (8 + ms.flatten.length) / 4 * 4 = 8 + ms.flatten.length := by
    unfold align4
    omega
  have hpre : (PACKET_MAGIC ++ leBytes 2 (align4 (8 + ms.flatten.length) / 4) ++
      leBytes 2 (crc16_ccitt ms.flatten)).length = 8 := by
    simp only [List.length_append, leBytes_length]
    rfl
  have hdec : PacketHeader.decode out 0 =
      some { length_words := align4 (8 + ms.flatten.length) / 4
             crc := crc16_ccitt ms.flatten } := by
    rw [hout]
    have h := PacketHeader.decode_magic_bytes (align4 (8 + ms.flatten.length) / 4)
      (crc16_ccitt ms.flatten) ms.flatten hlw (crc16_ccitt_lt _)
    rw [show PACKET_MAGIC ++ (leBytes 2 (align4 (8 + ms.flatten.length) / 4) ++
        (leBytes 2 (crc16_ccitt ms.flatten) ++ ms.flatten))
      = PACKET_MAGIC ++ leBytes 2 (align4 (8 + ms.flatten.length) / 4) ++
        leBytes 2 (crc16_ccitt ms.flatten) ++ ms.flatten from by simp [List.append_assoc]] at h
    exact h
  have houtlen : out.length = 8 + ms.flatten.length := by
    rw [hout]
    simp only [List.length_append, hpre]
  have hslice : slice out 8 (align4 (8 + ms.flatten.length) / 4 * 4) = ms.flatten := by
    rw [hlw4, hout]
    have h := slice_all (PACKET_MAGIC ++ leBytes 2 (align4 (8 + ms.flatten.length) / 4) ++
      leBytes 2 (crc16_ccitt ms.flatten)) ms.flatten
    rw [hpre] at h
    exact h
  have hwalk : packetWalk out (align4 (8 + ms.flatten.length) / 4 * 4) 8 = Except.ok ms := by
    rw [hlw4, hout]
    have h := packetWalk_concat ms (PACKET_MAGIC ++
      leBytes 2 (align4 (8 + ms.flatten.length) / 4) ++ leBytes 2 (crc16_ccitt ms.flatten))
      (fun m hm => ⟨(hwf m hm).1, (hwf m hm).2.2⟩)
    rw [hpre] at h
    exact h
  refine ⟨{ length_words := align4 (8 + ms.flatten.length) / 4
            crc := crc16_ccitt ms.flatten }, ?_⟩
  unfold deserializePacket
  rw [hdec]
  dsimp only
  rw [if_neg (show ¬ (out.length < align4 (8 + ms.flatten.length) / 4 * 4) by omega)]
  rw [hslice]
  rw [if_neg (show ¬ (crc16_ccitt ms.flatten ≠ crc16_ccitt ms.flatten) by simp)]
  rw [hwalk]

set_option maxRecDepth 8000 in
/-- **C4, witness.**  A packet built from two minimal messages, each carrying
a single `u32` (values `1` and `2`, keys `1`/`1`), decodes back to exactly
the two-element message list. -/
theorem c4_packet_roundtrip_witness :
    ∃ ph, deserializePacket
        [66, 108, 117, 101, 8, 0, 31, 196, 1, 0, 1, 0, 3, 0, 3, 0, 1, 0, 0, 0,
         1, 0, 1, 0, 3, 0, 3, 0, 2, 0, 0, 0] =
      Except.ok (ph, [[1, 0, 1, 0, 3, 0, 3, 0, 1, 0, 0, 0],
                      [1, 0, 1, 0, 3, 0, 3, 0, 2, 0, 0, 0]]) :=
  c4_packet_roundtrip
    [[1, 0, 1, 0, 3, 0, 3, 0, 1, 0, 0, 0], [1, 0, 1, 0, 3, 0, 3, 0, 2, 0, 0, 0]]
    [66, 108, 117, 101, 8, 0, 31, 196, 1, 0, 1, 0, 3, 0, 3, 0, 1, 0, 0, 0,
     1, 0, 1, 0, 3, 0, 3, 0, 2, 0, 0, 0]
    (by
      intro m hm
      rcases List.mem_cons.1 hm with h | hm
      · exact h ▸ Or.inl ⟨[Ann.wire 4], [Value.wire 1], 1, 1, rfl⟩
      rcases List.mem_cons.1 hm with h | hm
      · exact h ▸ Or.inl ⟨[Ann.wire 4], [Value.wire 2], 1, 1, rfl⟩
      · exact absurd hm (List.not_mem_nil m))
    rfl

/-! ## Packet error characterization (C6) -/

theorem WalkCursor_le {data : List Nat} {total s c : Nat}
    (h : WalkCursor data total s c) : s ≤ c := by
  induction h with
  | head => exact Nat.le_refl s
  | step h hc h8 hle ih => omega

/-- First-step inversion for the walk-cursor relation. -/
theorem WalkCursor_first {data : List Nat} {total s c : Nat}
    (h : WalkCursor data total s c) :
    c = s ∨ (s + 8 ≤ total ∧ 8 ≤ msgLenAt data s ∧ s + msgLenAt data s ≤ total ∧
      WalkCursor data total (s + msgLenAt data s) c) := by
  induction h with
  | head => exact Or.inl rfl
  | step h hc h8 hle ih =>
    rcases ih with rfl | ⟨hs8, hsl, hse, hw⟩
    · exact Or.inr ⟨hc, h8, hle, WalkCursor.head⟩
    · exact Or.inr ⟨hs8, hsl, hse, hw.step hc h8 hle⟩

theorem WalkCursor_prepend {data : List Nat} {total s c : Nat}
    (hc : s + 8 ≤ total) (h8 : 8 ≤ msgLenAt data s) (hle : s + msgLenAt data s ≤ total)
    (h : WalkCursor data total (s + msgLenAt data s) c) : WalkCursor data total s c := by
  induction h with
  | head => exact WalkCursor.head.step hc h8 hle
  | step h hc' h8' hle' ih => exact ih.step hc' h8' hle'

theorem MessageHeader.decode_in_range {data : List Nat} {offset : Nat}
    (h : offset + 8 ≤ data.length) :
    MessageHeader.decode data offset =
      some { module_key := (leVal data offset 4 >>> 16) &&& 65535
             message_key := leVal data offset 4 &&& 65535
             length := leVal data (offset + 4) 2
             max_ordinal := data.getD (offset + 6) 0
             tbd := data.getD (offset + 7) 0 } := by
  unfold MessageHeader.decode
  rw [if_neg (by omega)]

theorem packetWalk_stop_short (data : List Nat) (total offset : Nat)
    (h : total < offset + 8) : packetWalk data total offset = Except.ok [] := by
  unfold packetWalk
  rw [dif_neg (by omega)]

theorem packetWalk_stop_small (data : List Nat) (total offset : Nat)
    (hc : offset + 8 ≤ total) (hd : offset + 8 ≤ data.length)
    (hs : msgLenAt data offset < 8) : packetWalk data total offset = Except.ok [] := by
  unfold packetWalk
  rw [dif_pos hc, MessageHeader.decode_in_range hd]
  dsimp only
  rw [dif_pos (show leVal data (offset + 4) 2 * 4 < 8 from hs)]

/-- The partition walk errors (with `msgOverrun`) exactly when some cursor
reachable from `start` carries an overrunning header; otherwise it returns a
message list. -/
theorem packetWalk_char (data : List Nat) {total : Nat} (hlen : total ≤ data.length) :
    ∀ (fuel start : Nat), total - start ≤ fuel →
      (walkOverrunFrom data total start →
        packetWalk data total start = Except.error PacketError.msgOverrun) ∧
      (¬ walkOverrunFrom data total start →
        ∃ msgs, packetWalk data total start = Except.ok msgs) := by
  intro fuel
  induction fuel with
  | zero =>
    intro start hf
    constructor
    · rintro ⟨c, hw, hc8, -, -⟩
      exfalso
      have := WalkCursor_le hw
      omega
    · intro _
      exact ⟨[], packetWalk_stop_short _ _ _ (by omega)⟩
  | succ fuel ih =>
    intro start hf
    by_cases hc : start + 8 ≤ total
    case neg =>
      constructor
      · rintro ⟨c, hw, hc8, -, -⟩
        exfalso
        rcases WalkCursor_first hw with rfl | ⟨hs8, -, -, -⟩
        · omega
        · omega
      · intro _
        exact ⟨[], packetWalk_stop_short _ _ _ (by omega)⟩
    case pos =>
      have hd8 : start + 8 ≤ data.length := le_trans hc hlen
      by_cases h8 : msgLenAt data start < 8
      · constructor
        · rintro ⟨c, hw, hc8, hm8, hov⟩
          exfalso
          rcases WalkCursor_first hw with rfl | ⟨-, hs, -, -⟩
          · omega
          · omega
        · intro _
          exact ⟨[], packetWalk_stop_small data total start hc hd8 h8⟩
      · by_cases hend : total < start + msgLenAt data start
        · constructor
          · intro _
            unfold packetWalk
            rw [dif_pos hc, MessageHeader.decode_in_range hd8]
            dsimp only
            rw [dif_neg (show ¬ (leVal data (start + 4) 2 * 4 < 8) from h8)]
            rw [dif_pos (show total < start + leVal data (start + 4) 2 * 4 from hend)]
          · intro hno
            exact absurd ⟨start, WalkCursor.head, hc, by omega, hend⟩ hno
        · have hstep := ih (start + msgLenAt data start) (by
            unfold msgLenAt at *
            omega)
          have hiff : walkOverrunFrom data total start ↔
              walkOverrunFrom data total (start + msgLenAt data start) := by
            constructor
            · rintro ⟨c, hw, a, b, cc⟩
              rcases WalkCursor_first hw with rfl | ⟨-, -, -, hw'⟩
              · exfalso
                omega
              · exact ⟨c, hw', a, b, cc⟩
            · rintro ⟨c, hw, a, b, cc⟩
              exact ⟨c, WalkCursor_prepend hc (by omega) (by omega) hw, a, b, cc⟩
          unfold packetWalk
          rw [dif_pos hc, MessageHeader.decode_in_range hd8]
          dsimp only
          rw [dif_neg (show ¬ (leVal data (start + 4) 2 * 4 < 8) from h8)]
          rw [dif_neg (show ¬ (total < start + leVal data (start + 4) 2 * 4) from hend)]
          by_cases hov : walkOverrunFrom data total (start + msgLenAt data start)
          · have hw := hstep.1 hov
            rw [show start + leVal data (start + 4) 2 * 4 = start + msgLenAt data start
              from rfl, hw]
            constructor
            · intro _
              rfl
            · intro hno
              exact absurd (hiff.2 hov) hno
          · obtain ⟨msgs, hw⟩ := hstep.2 hov
            rw [show start + leVal data (start + 4) 2 * 4 = start + msgLenAt data start
              from rfl, hw]
            constructor
            · intro hovS
              exact absurd (hiff.1 hovS) hov
            · intro _
              exact ⟨_, rfl⟩

/-- **C6.**  `deserialize_packet` fails exactly on: missing/bad magic (or
fewer than 8 bytes); truncated data (`len < length_words * 4`); a CRC-16
mismatch over the message region; or a reachable inner message header whose
declared slice extends past `length_words * 4`.  Otherwise it succeeds, and
the partition walk terminates without error at a cursor with fewer than 8
bytes remaining or an inner header declaring `length * 4 < 8`. -/
theorem c6_packet_error_characterization (data : List Nat) :
    (PacketHeader.decode data 0 = none ↔
      data.length < 8 ∨ slice data 0 4 ≠ PACKET_MAGIC) ∧
    (deserializePacket data = Except.error PacketError.badHeader ↔
      PacketHeader.decode data 0 = none) ∧
    (deserializePacket data = Except.error PacketError.truncated ↔
      ∃ h, PacketHeader.decode data 0 = some h ∧ data.length < h.length_words * 4) ∧
    (deserializePacket data = Except.error PacketError.crcMismatch ↔
      ∃ h, PacketHeader.decode data 0 = some h ∧ h.length_words * 4 ≤ data.length ∧
        h.crc ≠ crc16_ccitt (slice data 8 (h.length_words * 4))) ∧
    (deserializePacket data = Except.error PacketError.msgOverrun ↔
      ∃ h, PacketHeader.decode data 0 = some h ∧ h.length_words * 4 ≤ data.length ∧
        h.crc = crc16_ccitt (slice data 8 (h.length_words * 4)) ∧
        walkOverrun data (h.length_words * 4)) ∧
    ((∃ r, deserializePacket data = Except.ok r) ↔
      ∃ h, PacketHeader.decode data 0 = some h ∧ h.length_words * 4 ≤ data.length ∧
        h.crc = crc16_ccitt (slice data 8 (h.length_words * 4)) ∧
        ¬ walkOverrun data (h.length_words * 4)) ∧
    (∀ total offset, total < offset + 8 → packetWalk data total offset = Except.ok []) ∧
    (∀ total offset, offset + 8 ≤ total → offset + 8 ≤ data.length →
      msgLenAt data offset < 8 → packetWalk data total offset = Except.ok []) := by
  have hfirst : PacketHeader.decode data 0 = none ↔
      data.length < 8 ∨ slice data 0 4 ≠ PACKET_MAGIC := by
    unfold PacketHeader.decode
    by_cases h8 : data.length - 0 < 8
    · rw [if_pos h8]
      exact iff_of_true rfl (Or.inl (by omega))
    · rw [if_neg h8]
      by_cases hm : slice data 0 (0 + 4) ≠ PACKET_MAGIC
      · rw [if_pos hm]
        exact iff_of_true rfl (Or.inr (by simpa using hm))
      · rw [if_neg hm]
        push_neg at hm
        constructor
        · intro h
          exact absurd h (by simp)
        · rintro (h | h)
          · omega
          · exact absurd (by simpa using hm) h
  refine ⟨hfirst, ?_⟩
  cases hdec : PacketHeader.decode data 0 with
  | none =>
    have hds : deserializePacket data = Except.error PacketError.badHeader := by
      unfold deserializePacket
      rw [hdec]
    refine ⟨by simp [hds, hdec], by simp [hds], by simp [hds], by simp [hds], by simp [hds],
      fun total offset h => packetWalk_stop_short data total offset h,
      fun total offset hc hd hs => packetWalk_stop_small data total offset hc hd hs⟩
  | some h =>
    by_cases htr : data.length < h.length_words * 4
    · have hds : deserializePacket data = Except.error PacketError.truncated := by
        unfold deserializePacket
        rw [hdec]
        dsimp only
        rw [if_pos htr]
      refine ⟨iff_of_false (by simp [hds]) (by simp [hdec]),
        iff_of_true hds ⟨h, rfl, htr⟩,
        iff_of_false (by simp [hds]) ?_, iff_of_false (by simp [hds]) ?_,
        iff_of_false (by rintro ⟨r, hr⟩; simp [hds] at hr) ?_,
        fun total offset hh => packetWalk_stop_short data total offset hh,
        fun total offset hc hd hs => packetWalk_stop_small data total offset hc hd hs⟩
      · rintro ⟨h', hh', hle, -⟩
        injection hh' with hh'
        subst hh'
        omega
      · rintro ⟨h', hh', hle, -, -⟩
        injection hh' with hh'
        subst hh'
        omega
      · rintro ⟨h', hh', hle, -, -⟩
        injection hh' with hh'
        subst hh'
        omega
    · by_cases hcrc : h.crc ≠ crc16_ccitt (slice data 8 (h.length_words * 4))
      · have hds : deserializePacket data = Except.error PacketError.crcMismatch := by
          unfold deserializePacket
          rw [hdec]
          dsimp only
          rw [if_neg htr, if_pos hcrc]
        refine ⟨iff_of_false (by simp [hds]) (by simp [hdec]),
          iff_of_false (by simp [hds]) ?_,
          iff_of_true hds ⟨h, rfl, by omega, hcrc⟩,
          iff_of_false (by simp [hds]) ?_,
          iff_of_false (by rintro ⟨r, hr⟩; simp [hds] at hr) ?_,
          fun total offset hh => packetWalk_stop_short data total offset hh,
          fun total offset hc hd hs => packetWalk_stop_small data total offset hc hd hs⟩
        · rintro ⟨h', hh', hlt⟩
          injection hh' with hh'
          subst hh'
          omega
        · rintro ⟨h', hh', -, heq, -⟩
          injection hh' with hh'
          subst hh'
          exact absurd heq hcrc
        · rintro ⟨h', hh', -, heq, -⟩
          injection hh' with hh'
          subst hh'
          exact absurd heq hcrc
      · push_neg at hcrc
        have hlen : h.length_words * 4 ≤ data.length := by omega
        have hchar := packetWalk_char data hlen (h.length_words * 4) 8 (by omega)
        by_cases hov : walkOverrun data (h.length_words * 4)
        · have hds : deserializePacket data = Except.error PacketError.msgOverrun := by
            unfold deserializePacket
            rw [hdec]
            dsimp only
            rw [if_neg htr, if_neg (by simpa using hcrc), hchar.1 hov]
          refine ⟨iff_of_false (by simp [hds]) (by simp [hdec]),
            iff_of_false (by simp [hds]) ?_,
            iff_of_false (by simp [hds]) ?_,
            iff_of_true hds ⟨h, rfl, by omega, hcrc, hov⟩,
            iff_of_false (by rintro ⟨r, hr⟩; simp [hds] at hr) ?_,
            fun total offset hh => packetWalk_stop_short data total offset hh,
            fun total offset hc hd hs => packetWalk_stop_small data total offset hc hd hs⟩
          · rintro ⟨h', hh', hlt⟩
            injection hh' with hh'
            subst hh'
            omega
          · rintro ⟨h', hh', -, hne⟩
            injection hh' with hh'
            subst hh'
            exact absurd hcrc hne
          · rintro ⟨h', hh', -, -, hno⟩
            injection hh' with hh'
            subst hh'
            exact absurd hov hno
        · obtain ⟨msgs, hwalk⟩ := hchar.2 hov
          have hds : deserializePacket data = Except.ok (h, msgs) := by
            unfold deserializePacket
            rw [hdec]
            dsimp only
            rw [if_neg htr, if_neg (by simpa using hcrc), hwalk]
          refine ⟨iff_of_false (by simp [hds]) (by simp [hdec]),
            iff_of_false (by simp [hds]) ?_,
            iff_of_false (by simp [hds]) ?_,
            iff_of_false (by simp [hds]) ?_,
            iff_of_true ⟨(h, msgs), hds⟩ ⟨h, rfl, by omega, hcrc, hov⟩,
            fun total offset hh => packetWalk_stop_short data total offset hh,
            fun total offset hc hd hs => packetWalk_stop_small data total offset hc hd hs⟩
          · rintro ⟨h', hh', hlt⟩
            injection hh' with hh'
            subst hh'
            omega
          · rintro ⟨h', hh', -, hne⟩
            injection hh' with hh'
            subst hh'
            exact absurd hcrc hne
          · rintro ⟨h', hh', -, -, hovr⟩
            injection hh' with hh'
            subst hh'
            exact absurd hovr hov

/-! ## CRC single-bit fidelity (C7) -/

theorem xor_cancel_right {a b c : Nat} (h : a ^^^ c = b ^^^ c) : a = b := by
  have h2 := congrArg (fun x => x ^^^ c) h
  simpa [Nat.xor_assoc] using h2

theorem xor_cancel_left {a b c : Nat} (h : c ^^^ a = c ^^^ b) : a = b := by
  have h2 := congrArg (fun x => c ^^^ x) h
  simpa [← Nat.xor_assoc] using h2

/-- Adding `2^16` commutes with a 16-bit xor. -/
theorem xor_high (r c : Nat) (hr : r < 65536) (hc : c < 65536) :
    (65536 + r) ^^^ c = 65536 + (r ^^^ c) := by
  have h65536 : (65536 : Nat) = 2 ^ 16 := by norm_num
  have hx : r ^^^ c < 65536 := by
    have := Nat.xor_lt_two_pow (show r < 2 ^ 16 by omega) (show c < 2 ^ 16 by omega)
    omega
  apply Nat.eq_of_testBit_eq
  intro i
  rcases Nat.lt_trichotomy i 16 with hi | rfl | hi
  · rw [Nat.testBit_xor, h65536, Nat.testBit_two_pow_add_gt hi, Nat.testBit_two_pow_add_gt hi,
      Nat.testBit_xor]
  · rw [Nat.testBit_xor, h65536, Nat.testBit_two_pow_add_eq, Nat.testBit_two_pow_add_eq]
    have h1 : r.testBit 16 = false := Nat.testBit_lt_two_pow (by omega)
    have h2 : c.testBit 16 = false := Nat.testBit_lt_two_pow (by omega)
    have h3 : (r ^^^ c).testBit 16 = false := Nat.testBit_lt_two_pow (by omega)
    rw [h1, h2, h3]
    rfl
  · have hp : (131072 : Nat) ≤ 2 ^ i := by
      calc (131072 : Nat) = 2 ^ 17 := by norm_num
        _ ≤ 2 ^ i := Nat.pow_le_pow_right (by norm_num) hi
    have h4 : ((65536 + r) ^^^ c).testBit i = false :=
      Nat.testBit_lt_two_pow (Nat.xor_lt_two_pow (by omega) (by omega))
    have h5 : (65536 + (r ^^^ c)).testBit i = false := Nat.testBit_lt_two_pow (by omega)
    rw [h4, h5]

/-- Arithmetic characterization of one CRC shift step on 16-bit state. -/
theorem crcShift_arith {a : Nat} (ha : a < 65536) :
    crcShift a = if 32768 ≤ a then (2 * a - 65536) ^^^ 4129 else 2 * a := by
  have htop : a &&& 32768 = (a.testBit 15).toNat * 32768 := by
    have h := Nat.and_two_pow a 15
    norm_num at h
    try exact h
  have hbit : a.testBit 15 = decide (a / 32768 % 2 = 1) := by
    rw [Nat.testBit_to_div_mod]
    try norm_num
  unfold crcShift
  by_cases hge : 32768 ≤ a
  · rw [if_pos hge]
    have hcond : a &&& 32768 ≠ 0 := by
      rw [htop, hbit]
      have hd : a / 32768 % 2 = 1 := by omega
      simp [hd]
    rw [if_pos hcond, Nat.shiftLeft_eq]
    have hsplit : a * 2 ^ 1 = 65536 + (2 * a - 65536) := by
      have := Nat.pow_succ 2 0
      omega
    rw [hsplit, xor_high _ _ (by omega) (by norm_num)]
    have hlt : (2 * a - 65536) ^^^ 4129 < 65536 := by
      have := Nat.xor_lt_two_pow (show 2 * a - 65536 < 2 ^ 16 by omega)
        (show (4129 : Nat) < 2 ^ 16 by norm_num)
      omega
    omega
  · rw [if_neg hge]
    have hcond : ¬ (a &&& 32768 ≠ 0) := by
      rw [htop, hbit]
      have hd : ¬ (a / 32768 % 2 = 1) := by omega
      simp [hd]
    rw [if_neg hcond, Nat.shiftLeft_eq]
    have := Nat.pow_succ 2 0
    omega

/-- One CRC shift step is injective on 16-bit states. -/
theorem crcShift_inj {a b : Nat} (ha : a < 65536) (hb : b < 65536)
    (h : crcShift a = crcShift b) : a = b := by
  rw [crcShift_arith ha, crcShift_arith hb] at h
  by_cases h1 : 32768 ≤ a <;> by_cases h2 : 32768 ≤ b
  · rw [if_pos h1, if_pos h2] at h
    have := xor_cancel_right h
    omega
  · rw [if_pos h1, if_neg h2] at h
    have hodd : ((2 * a - 65536) ^^^ 4129) % 2 = 1 := by
      rw [Nat.xor_mod_two_eq_one]
      omega
    omega
  · rw [if_neg h1, if_pos h2] at h
    have hodd : ((2 * b - 65536) ^^^ 4129) % 2 = 1 := by
      rw [Nat.xor_mod_two_eq_one]
      omega
    omega
  · rw [if_neg h1, if_neg h2] at h
    omega

theorem crcShift8_inj {x y : Nat} (hx : x < 65536) (hy : y < 65536)
    (h : crcShift8 x = crcShift8 y) : x = y := by
  unfold crcShift8 at h
  replace h := crcShift_inj (crcShift_lt _) (crcShift_lt _) h
  replace h := crcShift_inj (crcShift_lt _) (crcShift_lt _) h
  replace h := crcShift_inj (crcShift_lt _) (crcShift_lt _) h
  replace h := crcShift_inj (crcShift_lt _) (crcShift_lt _) h
  replace h := crcShift_inj (crcShift_lt _) (crcShift_lt _) h
  replace h := crcShift_inj (crcShift_lt _) (crcShift_lt _) h
  replace h := crcShift_inj (crcShift_lt _) (crcShift_lt _) h
  exact crcShift_inj hx hy h

theorem crcByte_xor_lt {c b : Nat} (hc : c < 65536) (hb : b < 256) :
    c ^^^ (b <<< 8) < 65536 := by
  have h1 : b <<< 8 < 65536 := by
    rw [Nat.shiftLeft_eq]
    omega
  have := Nat.xor_lt_two_pow (show c < 2 ^ 16 by omega) (show b <<< 8 < 2 ^ 16 by omega)
  omega

/-- Folding a byte into the CRC is injective in the running state. -/
theorem crcByte_inj_state {c c' b : Nat} (hc : c < 65536) (hc' : c' < 65536)
    (hb : b < 256) (h : crcByte c b = crcByte c' b) : c = c' := by
  unfold crcByte at h
  exact xor_cancel_right (crcShift8_inj (crcByte_xor_lt hc hb) (crcByte_xor_lt hc' hb) h)

/-- Folding different bytes from the same state yields different CRC states. -/
theorem crcByte_inj_byte {c b b' : Nat} (hc : c < 65536) (hb : b < 256) (hb' : b' < 256)
    (hne : b ≠ b') : crcByte c b ≠ crcByte c b' := by
  intro h
  unfold crcByte at h
  have h1 := xor_cancel_left
    (crcShift8_inj (crcByte_xor_lt hc hb) (crcByte_xor_lt hc hb') h)
  rw [Nat.shiftLeft_eq, Nat.shiftLeft_eq] at h1
  exact hne (by omega)

theorem crc_foldl_ne : ∀ (l : List Nat) (c c' : Nat), c < 65536 → c' < 65536 → c ≠ c' →
    (∀ b ∈ l, b < 256) → l.foldl crcByte c ≠ l.foldl crcByte c' := by
  intro l
  induction l with
  | nil =>
    intro c c' _ _ hne _
    simpa using hne
  | cons b rest ih =>
    intro c c' hc hc' hne hb
    simp only [List.foldl_cons]
    exact ih _ _ (crcByte_lt _ _) (crcByte_lt _ _)
      (fun h => hne (crcByte_inj_state hc hc' (hb b (by simp)) h))
      (fun x hx => hb x (by simp [hx]))

theorem flipBit_cons_zero (b : Nat) (rest : List Nat) (k : Nat) :
    flipBit (b :: rest) 0 k = (b ^^^ (1 <<< k)) :: rest := rfl

theorem flipBit_cons_succ (b : Nat) (rest : List Nat) (j k : Nat) :
    flipBit (b :: rest) (j + 1) k = b :: flipBit rest j k := rfl

theorem flipBit_length (data : List Nat) (i k : Nat) :
    (flipBit data i k).length = data.length := by
  unfold flipBit
  exact List.length_set _ _ _

/-- Flipping one bit of one byte changes the CRC fold from any 16-bit state. -/
theorem crc_foldl_flip_ne {k : Nat} (hk : k < 8) : ∀ (md : List Nat) (j c : Nat),
    c < 65536 → (∀ b ∈ md, b < 256) → j < md.length →
    (flipBit md j k).foldl crcByte c ≠ md.foldl crcByte c := by
  intro md
  induction md with
  | nil =>
    intro j c _ _ hj
    simp at hj
  | cons b rest ih =>
    intro j c hc hb hj
    cases j with
    | zero =>
      rw [flipBit_cons_zero]
      simp only [List.foldl_cons]
      have hbb : b < 256 := hb b (by simp)
      have hshift : 1 <<< k < 256 := by
        rw [Nat.shiftLeft_eq]
        have : (2 : Nat) ^ k ≤ 2 ^ 7 := Nat.pow_le_pow_right (by norm_num) (by omega)
        norm_num
        omega
      have hb' : b ^^^ (1 <<< k) < 256 := by
        have := Nat.xor_lt_two_pow (show b < 2 ^ 8 by omega) (show 1 <<< k < 2 ^ 8 by omega)
        omega
      have hne : b ^^^ (1 <<< k) ≠ b := by
        intro h
        have h0 : b ^^^ (1 <<< k) = b ^^^ 0 := by simpa using h
        have := xor_cancel_left h0
        rw [Nat.shiftLeft_eq] at this
        have hpow : 0 < (2 : Nat) ^ k := Nat.pos_pow_of_pos k (by norm_num)
        omega
      exact crc_foldl_ne rest _ _ (crcByte_lt _ _) (crcByte_lt _ _)
        (crcByte_inj_byte hc hb' hbb hne)
        (fun x hx => hb x (by simp [hx]))
    | succ j =>
      rw [flipBit_cons_succ]
      simp only [List.foldl_cons]
      exact ih j (crcByte c b) (crcByte_lt _ _) (fun x hx => hb x (by simp [hx]))
        (by simpa using hj)

/-- Flipping any single bit anywhere in a byte string changes its CRC-16. -/
theorem crc16_flip_ne {md : List Nat} {j k : Nat} (hbytes : ∀ b ∈ md, b < 256)
    (hj : j < md.length) (hk : k < 8) :
    crc16_ccitt (flipBit md j k) ≠ crc16_ccitt md :=
  crc_foldl_flip_ne hk md j 65535 (by omega) hbytes hj

/-- **C7.**  Flipping any single bit in the message region (bytes `8` up to
`length_words * 4`) of a `serialize_packet` output makes `deserialize_packet`
fail with the CRC-mismatch error. -/
theorem c7_crc_bit_flip (msgs : List (List Nat)) (p : List Nat) (i k : Nat)
    (hbytes : ∀ m ∈ msgs, ∀ b ∈ m, b < 256)
    (hsp : serializePacket msgs = some p)
    (hi8 : 8 ≤ i) (hik : i < p.length) (hk : k < 8) :
    deserializePacket (flipBit p i k) = Except.error PacketError.crcMismatch := by
  obtain ⟨hlw, hout⟩ := serializePacket_inv hsp
  set L := msgs.flatten.length with hL
  set md : List Nat := msgs.flatten ++ List.replicate (align4 (8 + L) - 8 - L) 0 with hmd
  set lw : Nat := align4 (8 + L) / 4 with hlwdef
  set crcv : Nat := crc16_ccitt md with hcrcv
  set pre : List Nat := PACKET_MAGIC ++ leBytes 2 lw ++ leBytes 2 crcv with hpredef
  have hpre : pre.length = 8 := by
    rw [hpredef]
    simp only [List.length_append, leBytes_length]
    rfl
  have hmdb : ∀ b ∈ md, b < 256 := by
    intro b hb
    rw [hmd] at hb
    rcases List.mem_append.1 hb with hb | hb
    · obtain ⟨m, hm, hbm⟩ := List.mem_flatten.1 hb
      exact hbytes m hm b hbm
    · rw [List.eq_of_mem_replicate hb]
      omega
  have hmdlen : md.length = align4 (8 + L) - 8 := by
    rw [hmd]
    simp only [List.length_append, List.length_replicate]
    have := le_align4 (8 + L)
    omega
  have hplen : p.length = 8 + md.length := by
    rw [hout]
    show (pre ++ md).length = 8 + md.length
    simp only [List.length_append, hpre]
  have hj : i - 8 < md.length := by omega
  have hflip : flipBit p i k = pre ++ flipBit md (i - 8) k := by
    unfold flipBit
    rw [hout]
    show (pre ++ md).set i ((pre ++ md).getD i 0 ^^^ 1 <<< k) = _
    rw [List.set_append_right _ _ (by omega),
      getD_skip pre md i (i - 8) (by omega), hpre]
  have hlw4 : lw * 4 = align4 (8 + L) := by
    rw [hlwdef]
    unfold align4
    omega
  have hflen : (flipBit md (i - 8) k).length = md.length := flipBit_length _ _ _
  have hdecf : PacketHeader.decode (flipBit p i k) 0 = some { length_words := lw, crc := crcv } := by
    rw [hflip, hpredef]
    have h := PacketHeader.decode_magic_bytes lw crcv (flipBit md (i - 8) k) hlw (crc16_ccitt_lt _)
    rw [show PACKET_MAGIC ++ (leBytes 2 lw ++ (leBytes 2 crcv ++ flipBit md (i - 8) k))
      = PACKET_MAGIC ++ leBytes 2 lw ++ leBytes 2 crcv ++ flipBit md (i - 8) k
      from by simp [List.append_assoc]] at h
    exact h
  have hslice : slice (flipBit p i k) 8 (lw * 4) = flipBit md (i - 8) k := by
    rw [hflip]
    have h := slice_all pre (flipBit md (i - 8) k)
    rw [hpre, hflen] at h
    rw [show lw * 4 = 8 + md.length from by omega]
    exact h
  have hne : crcv ≠ crc16_ccitt (flipBit md (i - 8) k) :=
    Ne.symm (crc16_flip_ne hmdb hj hk)
  unfold deserializePacket
  rw [hdecf]
  dsimp only
  rw [if_neg (show ¬ ((flipBit p i k).length < lw * 4) from by
    rw [flipBit_length]
    omega)]
  rw [hslice]
  rw [if_pos hne]

set_option maxRecDepth 8000 in
/-- **C7, witness.**  Flipping bit 0 of byte 8 (the first message byte) of
the concrete two-message packet makes `deserialize_packet` report a CRC
mismatch. -/
theorem c7_crc_bit_flip_witness :
    deserializePacket (flipBit
      [66, 108, 117, 101, 8, 0, 31, 196, 1, 0, 1, 0, 3, 0, 3, 0, 1, 0, 0, 0,
       1, 0, 1, 0, 3, 0, 3, 0, 2, 0, 0, 0] 8 0) =
      Except.error PacketError.crcMismatch :=
  c7_crc_bit_flip
    [[1, 0, 1, 0, 3, 0, 3, 0, 1, 0, 0, 0], [1, 0, 1, 0, 3, 0, 3, 0, 2, 0, 0, 0]]
    [66, 108, 117, 101, 8, 0, 31, 196, 1, 0, 1, 0, 3, 0, 3, 0, 1, 0, 0, 0,
     1, 0, 1, 0, 3, 0, 3, 0, 2, 0, 0, 0]
    8 0 (by decide) rfl (by decide) (by decide) (by decide)

/-! ## Prefix stability of packet parsing (C10) -/

/-- `PacketHeader.decode` at `0` only reads the first 8 bytes. -/
theorem PacketHeader.decode_prefix {p : List Nat} (h8 : 8 ≤ p.length)
    (t : List Nat) : PacketHeader.decode (p ++ t) 0 = PacketHeader.decode p 0 := by
  unfold PacketHeader.decode
  rw [if_neg (show ¬ ((p ++ t).length - 0 < 8) by simp; omega),
    if_neg (show ¬ (p.length - 0 < 8) by omega)]
  have hmagic : slice (p ++ t) 0 (0 + 4) = slice p 0 (0 + 4) := by
    unfold slice
    rw [List.drop_zero, List.drop_zero, List.take_append_of_le_length (by omega)]
  have h4 : leVal (p ++ t) (0 + 4) 2 = leVal p (0 + 4) 2 := leVal_append_left _ _ (by omega)
  have h6 : leVal (p ++ t) (0 + 6) 2 = leVal p (0 + 6) 2 := leVal_append_left _ _ (by omega)
  rw [hmagic, h4, h6]

theorem slice_append_left {p : List Nat} (t : List Nat) {a b : Nat}
    (ha : a ≤ p.length) (hb : b ≤ p.length) :
    slice (p ++ t) a b = slice p a b := by
  unfold slice
  rw [List.drop_append_of_le_length ha,
    List.take_append_of_le_length (by simp [List.length_drop]; omega)]

/-- `MessageHeader.decode` within the prefix ignores an appended tail. -/
theorem MessageHeader.decode_append_left_at {p : List Nat} (t : List Nat) {c : Nat}
    (hc : c + 8 ≤ p.length) :
    MessageHeader.decode (p ++ t) c = MessageHeader.decode p c := by
  unfold MessageHeader.decode
  rw [if_neg (show ¬ ((p ++ t).length - c < 8) by simp; omega),
    if_neg (show ¬ (p.length - c < 8) by omega)]
  have h0 : leVal (p ++ t) c 4 = leVal p c 4 := leVal_append_left _ _ (by omega)
  have h4 : leVal (p ++ t) (c + 4) 2 = leVal p (c + 4) 2 := leVal_append_left _ _ (by omega)
  have h6 : (p ++ t).getD (c + 6) 0 = p.getD (c + 6) 0 := getD_append_left_of_lt _ (by omega)
  have h7 : (p ++ t).getD (c + 7) 0 = p.getD (c + 7) 0 := getD_append_left_of_lt _ (by omega)
  rw [h0, h4, h6, h7]

/-- The partition walk inside the prefix ignores an appended tail. -/
theorem packetWalk_append_left {p : List Nat} (t : List Nat) {total : Nat}
    (hlen : total ≤ p.length) :
    ∀ (fuel offset : Nat), total - offset ≤ fuel →
      packetWalk (p ++ t) total offset = packetWalk p total offset := by
  intro fuel
  induction fuel with
  | zero =>
    intro offset hf
    rw [packetWalk_stop_short _ _ _ (by omega), packetWalk_stop_short _ _ _ (by omega)]
  | succ fuel ih =>
    intro offset hf
    by_cases hc : offset + 8 ≤ total
    case neg =>
      rw [packetWalk_stop_short _ _ _ (by omega), packetWalk_stop_short _ _ _ (by omega)]
    case pos =>
      unfold packetWalk
      rw [dif_pos hc, dif_pos hc, MessageHeader.decode_append_left_at t (by omega)]
      cases hmh : MessageHeader.decode p offset with
      | none => rfl
      | some mh =>
        dsimp only
        by_cases h8 : mh.length * 4 < 8
        · rw [dif_pos h8, dif_pos h8]
        · rw [dif_neg h8, dif_neg h8]
          by_cases hend : total < offset + mh.length * 4
          · rw [dif_pos hend, dif_pos hend]
          · rw [dif_neg hend, dif_neg hend]
            rw [ih (offset + mh.length * 4) (by omega)]
            rw [slice_append_left t (by omega) (by omega)]

/-- **C10.**  `deserialize_packet` depends only on the first
`length_words * 4` bytes of its input: appending any tail to a packet it
accepts (whose length matches its header exactly) leaves the returned header
and message list unchanged. -/
theorem c10_prefix_stability (p t : List Nat) (h : PacketHeader) (r : List (List Nat))
    (hok : deserializePacket p = Except.ok (h, r))
    (hlen : p.length = h.length_words * 4) :
    deserializePacket (p ++ t) = deserializePacket p := by
  unfold deserializePacket at hok ⊢
  cases hdec : PacketHeader.decode p 0 with
  | none =>
    rw [hdec] at hok
    exact absurd hok (by simp)
  | some h' =>
    rw [hdec] at hok
    dsimp only at hok
    have h8 : 8 ≤ p.length := by
      by_contra h8
      rw [show PacketHeader.decode p 0 = none from by
        unfold PacketHeader.decode
        rw [if_pos (by omega)]] at hdec
      exact absurd hdec (by simp)
    rw [PacketHeader.decode_prefix h8 t, hdec]
    dsimp only
    by_cases htr : p.length < h'.length_words * 4
    · rw [if_pos htr] at hok
      exact absurd hok (by simp)
    · rw [if_neg htr] at hok
      rw [if_neg (show ¬ ((p ++ t).length < h'.length_words * 4) by simp; omega)]
      rw [slice_append_left t (by omega) (by omega)]
      by_cases hcrc : h'.crc ≠ crc16_ccitt (slice p 8 (h'.length_words * 4))
      · rw [if_pos hcrc] at hok
        exact absurd hok (by simp)
      · rw [if_neg hcrc] at hok
        rw [if_neg hcrc]
        rw [packetWalk_append_left t (by omega) (h'.length_words * 4) 8 (by omega)]
        rw [if_neg htr, if_neg hcrc]

set_option maxRecDepth 8000 in
/-- Concrete parse of the two-message packet, for use as a witness input. -/
theorem deserializePacket_two_msg :
    deserializePacket
        [66, 108, 117, 101, 8, 0, 31, 196, 1, 0, 1, 0, 3, 0, 3, 0, 1, 0, 0, 0,
         1, 0, 1, 0, 3, 0, 3, 0, 2, 0, 0, 0] =
      Except.ok ({ length_words := 8, crc := 50207 },
        [[1, 0, 1, 0, 3, 0, 3, 0, 1, 0, 0, 0], [1, 0, 1, 0, 3, 0, 3, 0, 2, 0, 0, 0]]) := by
  have hw : packetWalk
      [66, 108, 117, 101, 8, 0, 31, 196, 1, 0, 1, 0, 3, 0, 3, 0, 1, 0, 0, 0,
       1, 0, 1, 0, 3, 0, 3, 0, 2, 0, 0, 0] (8 * 4) 8 =
      Except.ok [[1, 0, 1, 0, 3, 0, 3, 0, 1, 0, 0, 0],
                 [1, 0, 1, 0, 3, 0, 3, 0, 2, 0, 0, 0]] := by
    exact packetWalk_concat
      [[1, 0, 1, 0, 3, 0, 3, 0, 1, 0, 0, 0], [1, 0, 1, 0, 3, 0, 3, 0, 2, 0, 0, 0]]
      [66, 108, 117, 101, 8, 0, 31, 196]
      (by
        intro m hm
        rcases List.mem_cons.1 hm with rfl | hm
        · exact ⟨by norm_num, ⟨1, 1, 3, 3, 0⟩, rfl, by norm_num⟩
        rcases List.mem_cons.1 hm with rfl | hm
        · exact ⟨by norm_num, ⟨1, 1, 3, 3, 0⟩, rfl, by norm_num⟩
        · exact absurd hm (List.not_mem_nil m))
  unfold deserializePacket
  rw [show PacketHeader.decode
      [66, 108, 117, 101, 8, 0, 31, 196, 1, 0, 1, 0, 3, 0, 3, 0, 1, 0, 0, 0,
       1, 0, 1, 0, 3, 0, 3, 0, 2, 0, 0, 0] 0 = some ⟨8, 50207⟩ from rfl]
  dsimp only
  rw [if_neg (by norm_num)]
  rw [if_neg (by decide)]
  rw [hw]

set_option maxRecDepth 8000 in
/-- **C10, witness.**  Appending the junk tail `[1,2,3]` to the concrete
two-message packet (32 bytes, `length_words = 8`, CRC `0xC41F`) leaves
`deserialize_packet`'s result unchanged. -/
theorem c10_prefix_stability_witness :
    deserializePacket
        ([66, 108, 117, 101, 8, 0, 31, 196, 1, 0, 1, 0, 3, 0, 3, 0, 1, 0, 0, 0,
          1, 0, 1, 0, 3, 0, 3, 0, 2, 0, 0, 0] ++ [1, 2, 3]) =
      deserializePacket
        [66, 108, 117, 101, 8, 0, 31, 196, 1, 0, 1, 0, 3, 0, 3, 0, 1, 0, 0, 0,
         1, 0, 1, 0, 3, 0, 3, 0, 2, 0, 0, 0] :=
  c10_prefix_stability
    [66, 108, 117, 101, 8, 0, 31, 196, 1, 0, 1, 0, 3, 0, 3, 0, 1, 0, 0, 0,
     1, 0, 1, 0, 3, 0, 3, 0, 2, 0, 0, 0]
    [1, 2, 3] { length_words := 8, crc := 50207 }
    [[1, 0, 1, 0, 3, 0, 3, 0, 1, 0, 0, 0], [1, 0, 1, 0, 3, 0, 3, 0, 2, 0, 0, 0]]
    deserializePacket_two_msg rfl

end Blueberry
